import Mathlib

/-!
Verification of the ferrum-fix FIX codec library: a shallow embedding of the
JSON codec (src/fefix/src/codec/json.rs), the FAST template loader
(src/fefix/src/codec/fast/template.rs) and the embedded QuickFIX resources
(src/fefix/src/app/mod.rs), together with theorems settling the frozen
claims about them.

Conventions of the embedding:
* Rust `Result` values are embedded as `RResult`, which has a third
  alternative `panic` recording that the Rust code would abort through
  `unwrap`/`expect`/`panic!` instead of returning.  A model function
  returning `Option` uses `none` for a panic when no error type is in play.
* `serde_json::Value` is embedded as `Json`; objects carry their entry list.
  Parsed serde objects have unique keys (duplicates collapse during
  parsing), so member lookup is embedded as first-match association-list
  lookup, and the theorems that need it carry explicit no-duplicate-key
  hypotheses.
* `BTreeMap` maps are embedded as association lists ordered by key,
  maintained by `btInsert`; `serde_json::Map::insert` is embedded as
  `mapInsert` (replace in place or append; object-key order is irrelevant
  because documents are compared by `JsonEquiv`, which ignores it).
* Byte-level JSON parsing and printing happen in serde, outside this
  repository: decode receives `Option Json` (`none` standing for input that
  does not parse), and encode produces the `Json` value that would be
  serialized, so "equal modulo key ordering and whitespace" becomes
  `JsonEquiv` on values.
-/

/-- Outcome of running a piece of Rust code: a normal return, an error
return, or a panic (`unwrap` on `None`/`Err`, `expect`, `panic!`). -/
inductive RResult (ε : Type) (α : Type) where
  | ok (a : α)
  | err (e : ε)
  | panic

/-- First-match lookup in an association list (`BTreeMap::get` /
`serde_json::Map::get` on maps whose keys are unique). -/
def alookup {α : Type} [DecidableEq α] {β : Type} (k : α) : List (α × β) → Option β
  | [] => none
  | (k2, v) :: rest => if k = k2 then some v else alookup k rest

/-- `true` iff no key occurs twice in the association list. -/
def nodupKeysB {α : Type} [DecidableEq α] {β : Type} : List (α × β) → Bool
  | [] => true
  | (k, _) :: rest => !(rest.any (fun p => decide (p.1 = k))) && nodupKeysB rest

/-- A parsed JSON document (`serde_json::Value`). -/
inductive Json where
  | null
  | bool (b : Bool)
  | num (n : Int)
  | str (s : String)
  | arr (elems : List Json)
  | obj (entries : List (String × Json))

/-- `Value::as_object`. -/
def Json.asObj : Json → Option (List (String × Json))
  | .obj e => some e
  | _ => none

/-- `Value::as_str`. -/
def Json.asStr : Json → Option String
  | .str s => some s
  | _ => none

/-- `Value::get(key)`: member lookup, `none` on non-objects. -/
def Json.getMember (j : Json) (k : String) : Option Json :=
  match j with
  | .obj e => alookup k e
  | _ => none

/-- Equality of JSON documents modulo object-key ordering (and, at the byte
level, whitespace): scalars must agree, arrays must agree pointwise in
order, and objects must have the same member lookup, recursively. -/
inductive JsonEquiv : Json → Json → Prop where
  | null : JsonEquiv .null .null
  | bool (b : Bool) : JsonEquiv (.bool b) (.bool b)
  | num (n : Int) : JsonEquiv (.num n) (.num n)
  | str (s : String) : JsonEquiv (.str s) (.str s)
  | arr (xs ys : List Json) :
      xs.length = ys.length →
      (∀ x y, (x, y) ∈ xs.zip ys → JsonEquiv x y) →
      JsonEquiv (.arr xs) (.arr ys)
  | obj (e1 e2 : List (String × Json)) :
      (∀ k, (alookup k e1).isSome = (alookup k e2).isSome) →
      (∀ k v1 v2, alookup k e1 = some v1 → alookup k e2 = some v2 → JsonEquiv v1 v2) →
      JsonEquiv (.obj e1) (.obj e2)

/-- Modelled from the spec: a field definition of the Dictionary
(`src/fefix/src/dictionary.rs` is not under `src/`; §4.2 of the spec gives
the contract).  Only the tag and name are consumed by the JSON codec. -/
structure FieldDef where
  tag : Nat
  name : String
deriving DecidableEq

/-- Modelled from the spec: the Dictionary schema (its implementation is not
under `src/`).  A component is kept as the set of field tags it transitively
contains, which is exactly what `contains_field` observes; `version` is what
`get_version` returns. -/
structure Dictionary where
  version : String
  fields : List FieldDef
  components : List (String × List Nat)

/-- Modelled from the spec: `Dictionary::field_by_name`. -/
def Dictionary.field_by_name (d : Dictionary) (key : String) : Option FieldDef :=
  d.fields.find? (fun f => f.name = key)

/-- Modelled from the spec: `Dictionary::field_by_tag`. -/
def Dictionary.field_by_tag (d : Dictionary) (tag : Nat) : Option FieldDef :=
  d.fields.find? (fun f => f.tag = tag)

/-- Modelled from the spec: `Dictionary::component_by_name`. -/
def Dictionary.component_by_name (d : Dictionary) (name : String) : Option (List Nat) :=
  alookup name d.components

/-- Modelled from the spec: `Component::contains_field` — true iff the field
is transitively reachable from the component. -/
def contains_field (component : List Nat) (f : FieldDef) : Bool :=
  component.contains f.tag

/-- The spec's Dictionary invariants (§3): tag uniqueness and name
uniqueness.  The embedded QuickFIX dictionaries satisfy them. -/
def Dictionary.Wf (d : Dictionary) : Prop :=
  (d.fields.map FieldDef.tag).Nodup ∧ (d.fields.map FieldDef.name).Nodup

/-- Modelled from the spec: `slr::FixFieldValue` (`src/fefix/src/app/slr.rs`
is not under `src/`).  `String` and `Group` are the variants the JSON codec
pattern-matches on; `Int` stands for the remaining scalar (`Atom`) variants
of the spec's §3 message model, which the JSON codec treats uniformly (they
all fall into its catch-all arms). -/
inductive FixFieldValue where
  | String (s : String)
  | Int (i : Int)
  | Group (g : List (List (Nat × FixFieldValue)))

/-- `BTreeMap::insert`: insert keeping keys strictly ascending, replacing an
existing binding of the same key. -/
def btInsert {β : Type} (k : Nat) (v : β) : List (Nat × β) → List (Nat × β)
  | [] => [(k, v)]
  | (k2, v2) :: rest =>
    if k < k2 then (k, v) :: (k2, v2) :: rest
    else if k = k2 then (k, v) :: rest
    else (k2, v2) :: btInsert k v rest

/-- Modelled from the spec: `slr::Message` (not under `src/`) — a mapping
from tag to field value (`fields: BTreeMap`). -/
structure Message where
  fields : List (Nat × FixFieldValue)

/-- Modelled from the spec: `Message::default()` — the empty message. -/
def Message.default : Message := ⟨[]⟩

/-- Modelled from the spec: `TsrMessageRef::set_field` — replace-or-insert. -/
def Message.set_field (m : Message) (tag : Nat) (v : FixFieldValue) : Message :=
  ⟨btInsert tag v m.fields⟩

/-- Modelled from the spec: `TsrMessageRef::get_field`. -/
def Message.get_field (m : Message) (tag : Nat) : Option FixFieldValue :=
  alookup tag m.fields

/-- `serde_json::Map::insert`: replace the binding in place if the key is
present, append otherwise. -/
def mapInsert (acc : List (String × Json)) (k : String) (v : Json) : List (String × Json) :=
  match acc with
  | [] => [(k, v)]
  | (k2, v2) :: rest =>
    if k2 = k then (k2, v) :: rest else (k2, v2) :: mapInsert rest k v

/-- The error type of `json::Codec::decode` (src/fefix/src/codec/json.rs). -/
inductive DecodeError where
  | Syntax
  | Schema
  | InvalidMsgType
  | InvalidData
deriving DecidableEq

/-- The error type of `json::Codec::encode`. -/
inductive EncoderError where
  | Dictionary
deriving DecidableEq

/-- The JSON codec device: its dictionaries, keyed by version string
(`Codec::new` registers exactly one).  The `message` scratch field and the
pretty-print configuration only affect buffering and whitespace, which the
embedding abstracts over. -/
structure Codec where
  dictionaries : List (String × Dictionary)

/-- `json::Codec::new`. -/
def Codec.new (dict : Dictionary) : Codec :=
  ⟨[(dict.version, dict)]⟩

mutual

/-- `json::Codec::decode_field`. -/
def decode_field (d : Dictionary) (key : String) (value : Json) :
    RResult DecodeError (Nat × FixFieldValue) :=
  match d.field_by_name key with
  | some field =>
    match value with
    | .str s => .ok (field.tag, .String s)
    | .arr values =>
      match decode_groups d values with
      | .ok group => .ok (field.tag, .Group group)
      | .err e => .err e
      | .panic => .panic
    | _ => .err .InvalidData
  | none => .err .InvalidData

/-- The `for item in values` loop of `decode_field`'s array arm. -/
def decode_groups (d : Dictionary) (values : List Json) :
    RResult DecodeError (List (List (Nat × FixFieldValue))) :=
  match values with
  | [] => .ok []
  | item :: rest =>
    match decode_component_block d item with
    | .ok g =>
      match decode_groups d rest with
      | .ok gs => .ok (g :: gs)
      | .err e => .err e
      | .panic => .panic
    | .err e => .err e
    | .panic => .panic

/-- `json::Codec::decode_component_block`.  The source calls
`value.as_object().unwrap()`: a non-object group element is a panic. -/
def decode_component_block (d : Dictionary) (value : Json) :
    RResult DecodeError (List (Nat × FixFieldValue)) :=
  match value with
  | .obj entries => decode_entries d entries []
  | _ => .panic

/-- The entry loop of `decode_component_block`, accumulating into a
`BTreeMap`. -/
def decode_entries (d : Dictionary) (entries : List (String × Json))
    (group : List (Nat × FixFieldValue)) :
    RResult DecodeError (List (Nat × FixFieldValue)) :=
  match entries with
  | [] => .ok group
  | (k, v) :: rest =>
    match decode_field d k v with
    | .ok (tag, field) => decode_entries d rest (btInsert tag field group)
    | .err e => .err e
    | .panic => .panic

end

mutual

/-- `json::Codec::translate`.  `none` models a panic: the catch-all arm is
`panic!()`, and the group arm unwraps `field_by_tag`. -/
def Codec.translate (d : Dictionary) (field : FixFieldValue) : Option Json :=
  match field with
  | .String c => some (.str c)
  | .Group array =>
    match translateGroups d array with
    | some values => some (.arr values)
    | none => none
  | _ => none

/-- The `for group in array` loop of `translate`. -/
def translateGroups (d : Dictionary) (array : List (List (Nat × FixFieldValue))) :
    Option (List Json) :=
  match array with
  | [] => some []
  | group :: rest =>
    match translateEntries d group [] with
    | some map =>
      match translateGroups d rest with
      | some values => some (.obj map :: values)
      | none => none
    | none => none

/-- The `for item in group` loop of `translate`, accumulating a
`serde_json::Map`. -/
def translateEntries (d : Dictionary) (group : List (Nat × FixFieldValue))
    (map : List (String × Json)) : Option (List (String × Json)) :=
  match group with
  | [] => some map
  | (tag, v) :: rest =>
    match d.field_by_tag tag with
    | none => none
    | some field =>
      match Codec.translate d v with
      | some field_value => translateEntries d rest (mapInsert map field.name field_value)
      | none => none

end

/-- The field loop of `json::Codec::encode`: partition each field into the
header, body or trailer map by `contains_field`. -/
def encodeFields (d : Dictionary) (hdr trl : List Nat) :
    List (Nat × FixFieldValue) →
    List (String × Json) → List (String × Json) → List (String × Json) →
    RResult EncoderError (List (String × Json) × List (String × Json) × List (String × Json))
  | [], map_header, map_body, map_trailer => .ok (map_header, map_body, map_trailer)
  | (field_tag, field_value) :: rest, map_header, map_body, map_trailer =>
    match d.field_by_tag field_tag with
    | none => .err .Dictionary
    | some field =>
      match Codec.translate d field_value with
      | none => .panic
      | some value =>
        if contains_field hdr field then
          encodeFields d hdr trl rest (mapInsert map_header field.name value) map_body map_trailer
        else if contains_field trl field then
          encodeFields d hdr trl rest map_header map_body (mapInsert map_trailer field.name value)
        else
          encodeFields d hdr trl rest map_header (mapInsert map_body field.name value) map_trailer

/-- `json::Codec::encode` (Encoder impl), producing the `Json` value that
would be serialized into the buffer. -/
def Codec.encode (c : Codec) (message : Message) : RResult EncoderError Json :=
  match alookup 8 message.fields with
  | some (.String fix_version) =>
    match alookup fix_version c.dictionaries with
    | none => .err .Dictionary
    | some dictionary =>
      match dictionary.component_by_name "StandardHeader" with
      | none => .panic
      | some component_std_header =>
        match dictionary.component_by_name "StandardTrailer" with
        | none => .panic
        | some component_std_traler =>
          match message.get_field 35 with
          | some (.String msg_type) =>
            match encodeFields dictionary component_std_header component_std_traler
                message.fields [("MsgType", .str msg_type)] [] [] with
            | .ok (map_header, map_body, map_trailer) =>
              .ok (.obj [("Header", .obj map_header), ("Body", .obj map_body),
                         ("Trailer", .obj map_trailer)])
            | .err e => .err e
            | .panic => .panic
          | _ => .err .Dictionary
  | _ => .err .Dictionary

/-- The field loop of `json::Codec::decode`, over the chained header, body
and trailer entries. -/
def decodeFields (d : Dictionary) : List (String × Json) → Message →
    RResult DecodeError Message
  | [], message => .ok message
  | (k, v) :: rest, message =>
    match decode_field d k v with
    | .ok (tag, field) => decodeFields d rest (message.set_field tag field)
    | .err e => .err e
    | .panic => .panic

/-- `json::Codec::decode` (Decoder impl).  `data = none` stands for input
bytes that serde rejects as malformed JSON. -/
def Codec.decode (c : Codec) (data : Option Json) : RResult DecodeError Message :=
  match data with
  | none => .err .Syntax
  | some value =>
    match (value.getMember "Header").bind Json.asObj with
    | none => .err .Schema
    | some header =>
      match (value.getMember "Body").bind Json.asObj with
      | none => .err .Schema
      | some body =>
        match (value.getMember "Trailer").bind Json.asObj with
        | none => .err .Schema
        | some trailer =>
          match (alookup "MsgType" header).bind Json.asStr with
          | none => .err .Schema
          | some _field_msg_type =>
            match (alookup "BeginString" header).bind Json.asStr with
            | none => .err .Schema
            | some field_begin_string =>
              match alookup field_begin_string c.dictionaries with
              | none => .err .InvalidMsgType
              | some dictionary =>
                decodeFields dictionary (header ++ body ++ trailer) Message.default

/-- `fast::Decimal` (src/fefix/src/codec/fast/mod.rs is not under `src/`):
only its identity matters to the template loader. -/
structure Decimal where
  mantissa : Int
  exponent : Int
deriving DecidableEq

/-- The primitive FAST types (src/fefix/src/codec/fast/template.rs). -/
inductive PrimitiveType where
  | SInt32
  | UInt32
  | SInt64
  | UInt64
  | Decimal
  | Ascii
  | Utf8
  | Bytes
deriving DecidableEq

/-- `fast::template::FieldType`. -/
inductive FieldType where
  | Primitive (t : PrimitiveType)
  | Group (n : Nat)
deriving DecidableEq

/-- Modelled from the spec: `fast::errors::StaticError`
(src/fefix/src/codec/fast/errors.rs is not under `src/`) — the static
schema-time error family; `S1` is the schema error the template loader
reports (§4.6: "the static family is StaticError::* (S1 — schema)"). -/
inductive StaticError where
  | S1
deriving DecidableEq

/-- Modelled from the spec: `fast::field_operators::FieldOperatorInstruction`
(not under `src/`); the loader only ever uses `Constant`. -/
inductive FieldOperatorInstruction where
  | Constant
  | Default
  | Copy
  | Increment
  | Delta
  | Tail
deriving DecidableEq

/-- `fast::template::FieldInstruction`. -/
structure FieldInstruction where
  field_type : FieldType
  name : String
  id : Nat
  mandatory : Bool
  operator : FieldOperatorInstruction
deriving DecidableEq

/-- `FieldInstruction::kind`. -/
def FieldInstruction.kind (i : FieldInstruction) : FieldType :=
  i.field_type

/-- `FieldInstruction::is_mandatory`. -/
def FieldInstruction.is_mandatory (i : FieldInstruction) : Bool :=
  i.mandatory

/-- An XML element as the template loader observes it through roxmltree:
its tag name and its attribute list (`node.tag_name().name()` and
`node.attribute(..)`). -/
structure XmlNode where
  tag_name : String
  attributes : List (String × String)

/-- `roxmltree::Node::attribute`. -/
def XmlNode.attribute (node : XmlNode) (k : String) : Option String :=
  alookup k node.attributes

/-- Decimal digits to a number, most significant first. -/
def digitsToNat : List Char → Nat → Nat
  | [], acc => acc
  | c :: rest, acc => digitsToNat rest (acc * 10 + (c.toNat - 48))

/-- Rust `str::parse::<u32>`: an optional leading `+`, then one or more
decimal digits, value below 2^32. -/
def rustParseU32 (s : String) : Option Nat :=
  let cs :=
    match s.data with
    | '+' :: rest => rest
    | l => l
  if cs ≠ [] ∧ cs.all (fun c => c.isDigit) then
    if digitsToNat cs 0 < 4294967296 then some (digitsToNat cs 0) else none
  else none

/-- `Template::xml_tag_to_instruction`: the element-name-to-type table. -/
def Template.xml_tag_to_instruction (tag : String) : RResult StaticError FieldType :=
  match tag with
  | "string" => .ok (.Primitive .Ascii)
  | "uInt32" => .ok (.Primitive .UInt32)
  | "int32" => .ok (.Primitive .SInt32)
  | "uInt64" => .ok (.Primitive .UInt64)
  | "int64" => .ok (.Primitive .SInt64)
  | "decimal" => .ok (.Primitive .Decimal)
  | "byteVector" => .ok (.Primitive .Decimal)
  | "length" => .ok (.Primitive .UInt32)
  | _ => .err .S1

/-- `FieldInstruction::from_template`.  The `name` attribute is checked with
`ok_or(StaticError::S1)`; the `id` attribute is read with
`.unwrap().parse().unwrap()`, so its absence or unparsability is a panic. -/
def FieldInstruction.from_template (node : XmlNode) : RResult StaticError FieldInstruction :=
  match node.attribute "name" with
  | none => .err .S1
  | some name =>
    match node.attribute "id" with
    | none => .panic
    | some idAttr =>
      match rustParseU32 idAttr with
      | none => .panic
      | some id =>
        let mandatory := ((node.attribute "presence").getD "true") = "true"
        match Template.xml_tag_to_instruction node.tag_name with
        | .ok field_type =>
          .ok { field_type := field_type, name := name, id := id,
                mandatory := mandatory, operator := .Constant }
        | .err e => .err e
        | .panic => .panic

/-- `app::Version` (src/fefix/src/app/mod.rs). -/
inductive Version where
  | Fix40
  | Fix41
  | Fix42
  | Fix43
  | Fix44
  | Fix50
  | Fix50SP1
  | Fix50SP2
  | Fixt11
deriving DecidableEq

/-- The filename match inside `Version::get_quickfix_spec`. -/
def Version.quickfix_filename : Version → String
  | .Fix40 => "FIX-4.0.xml"
  | .Fix41 => "FIX-4.1.xml"
  | .Fix42 => "FIX-4.2.xml"
  | .Fix43 => "FIX-4.3.xml"
  | .Fix44 => "FIX-4.4.xml"
  | .Fix50 => "FIX-5.0.xml"
  | .Fix50SP1 => "FIX-5.0-SP1.xml"
  | .Fix50SP2 => "FIX-5.0-SP2.xml"
  | .Fixt11 => "FIXT-1.1.xml"

/-- Render a single-element XML document `<name k="v" .../>`: every string
in the image of this function is a well-formed XML document. -/
def XmlNode.render (n : XmlNode) : String :=
  "<" ++ n.tag_name ++
    (n.attributes.foldl
      (fun acc p => acc ++ " " ++ p.1 ++ "=\"" ++ p.2 ++ "\"") "") ++ "/>"

/-- Modelled from the spec: the root elements of the embedded QuickFIX
definition files (the `resources/quickfix/*.xml` blobs bundled by
`RustEmbed` are not under `src/`; per §4.1 and §8 of the spec the library
bundles one well-formed, non-empty, pairwise-distinct XML file per
enumerated Version). -/
def quickFixRoot : Version → XmlNode
  | .Fix40 => ⟨"fix", [("major", "4"), ("minor", "0")]⟩
  | .Fix41 => ⟨"fix", [("major", "4"), ("minor", "1")]⟩
  | .Fix42 => ⟨"fix", [("major", "4"), ("minor", "2")]⟩
  | .Fix43 => ⟨"fix", [("major", "4"), ("minor", "3")]⟩
  | .Fix44 => ⟨"fix", [("major", "4"), ("minor", "4")]⟩
  | .Fix50 => ⟨"fix", [("major", "5"), ("minor", "0")]⟩
  | .Fix50SP1 => ⟨"fix", [("major", "5"), ("minor", "0"), ("servicepack", "1")]⟩
  | .Fix50SP2 => ⟨"fix", [("major", "5"), ("minor", "0"), ("servicepack", "2")]⟩
  | .Fixt11 => ⟨"fix", [("type", "FIXT"), ("major", "1"), ("minor", "1")]⟩

/-- Modelled from the spec: the embedded resource store (`QuickFixDicts`,
a `RustEmbed` over `resources/quickfix/`), keyed by filename and retrievable
without filesystem access. -/
def QuickFixDicts.get (filename : String) : Option String :=
  alookup filename
    [ ("FIX-4.0.xml", (quickFixRoot .Fix40).render),
      ("FIX-4.1.xml", (quickFixRoot .Fix41).render),
      ("FIX-4.2.xml", (quickFixRoot .Fix42).render),
      ("FIX-4.3.xml", (quickFixRoot .Fix43).render),
      ("FIX-4.4.xml", (quickFixRoot .Fix44).render),
      ("FIX-5.0.xml", (quickFixRoot .Fix50).render),
      ("FIX-5.0-SP1.xml", (quickFixRoot .Fix50SP1).render),
      ("FIX-5.0-SP2.xml", (quickFixRoot .Fix50SP2).render),
      ("FIXT-1.1.xml", (quickFixRoot .Fixt11).render) ]

/-- `Version::get_quickfix_spec`: look the filename up in the embedded
store.  The source unwraps the lookup with `.expect(filename)`; the result
is kept as an `Option` so the always-`some` fact is a theorem. -/
def Version.get_quickfix_spec (v : Version) : Option String :=
  QuickFixDicts.get v.quickfix_filename

/-- A small cut of the FIX 4.4 dictionary: enough fields and the two
standard components to exercise the JSON codec. -/
def exDict : Dictionary :=
  { version := "FIX.4.4",
    fields :=
      [ ⟨8, "BeginString"⟩, ⟨35, "MsgType"⟩, ⟨34, "MsgSeqNum"⟩,
        ⟨49, "SenderCompID"⟩, ⟨268, "NoMDEntries"⟩, ⟨269, "MDEntryType"⟩,
        ⟨270, "MDEntryPx"⟩, ⟨89, "Signature"⟩ ],
    components :=
      [ ("StandardHeader", [8, 35, 34, 49]),
        ("StandardTrailer", [89, 93]) ] }

/-- The codec under test in the concrete examples: `Codec::new(exDict)`. -/
def exCodec : Codec := Codec.new exDict

/-- The dictionary-selection step at the head of `Codec::encode`: the value
of tag 8 must be a `String` naming a registered dictionary. -/
def selectDictionary (c : Codec) (m : Message) : Option Dictionary :=
  match alookup 8 m.fields with
  | some (.String fix_version) => alookup fix_version c.dictionaries
  | _ => none

mutual

/-- `true` iff `Codec.translate` returns without panicking: the value is a
`String`, or a `Group` all of whose entries (recursively) have known tags
and translatable values. -/
def translatableB (d : Dictionary) : FixFieldValue → Bool
  | .String _ => true
  | .Group gs => translatableGroupsB d gs
  | _ => false

/-- `translatableB` over the group list. -/
def translatableGroupsB (d : Dictionary) : List (List (Nat × FixFieldValue)) → Bool
  | [] => true
  | g :: rest => translatableEntriesB d g && translatableGroupsB d rest

/-- `translatableB` over one group's entries. -/
def translatableEntriesB (d : Dictionary) : List (Nat × FixFieldValue) → Bool
  | [] => true
  | (t, v) :: rest => (d.field_by_tag t).isSome && translatableB d v && translatableEntriesB d rest

end

mutual

/-- The shape the JSON encoder emits for a field value: a JSON string for a
scalar, an array of objects for a group, recursively. -/
def isRenderShape : Json → Bool
  | .str _ => true
  | .arr xs => isRenderElems xs
  | _ => false

/-- `isRenderShape` over a rendered group array. -/
def isRenderElems : List Json → Bool
  | [] => true
  | x :: rest => isRenderElem x && isRenderElems rest

/-- A rendered group element: an object whose member values are again
rendered shapes. -/
def isRenderElem : Json → Bool
  | .obj ents => isRenderEntries ents
  | _ => false

/-- `isRenderShape` over an object's entries. -/
def isRenderEntries : List (String × Json) → Bool
  | [] => true
  | (_, v) :: rest => isRenderShape v && isRenderEntries rest

end

/-- The invariant of a `BTreeMap` association list: keys strictly
ascending. -/
def TMap {β : Type} (l : List (Nat × β)) : Prop :=
  l.Pairwise (fun a b => a.1 < b.1)

mutual

/-- A JSON value the decoder accepts and the encoder reproduces: a string,
or an array of group elements, recursively. -/
def goodVal (d : Dictionary) : Json → Bool
  | .str _ => true
  | .arr vs => goodElems d vs
  | _ => false

/-- `goodVal` over a repeating-group array. -/
def goodElems (d : Dictionary) : List Json → Bool
  | [] => true
  | v :: rest => goodElem d v && goodElems d rest

/-- A good group element: an object with unique keys whose members all
resolve in the dictionary and are good values. -/
def goodElem (d : Dictionary) : Json → Bool
  | .obj entries => nodupKeysB entries && goodEntries d entries
  | _ => false

/-- `goodVal` over an object's entries, with the field names known. -/
def goodEntries (d : Dictionary) : List (String × Json) → Bool
  | [] => true
  | (k, v) :: rest => (d.field_by_name k).isSome && goodVal d v && goodEntries d rest

end

/-- The decode/translate round trip of one field: decoding `(k, v)` yields
the field's tag with a value that translates back to a JSON value
equivalent to `v`. -/
def DecPacket (d : Dictionary) (k : String) (v : Json) : Prop :=
  ∃ f fv out, d.field_by_name k = some f ∧ decode_field d k v = .ok (f.tag, fv) ∧
    Codec.translate d fv = some out ∧ JsonEquiv out v ∧
    ∀ s, v = .str s → fv = .String s

/-- Every member of a Header object names a field contained in
`StandardHeader` — the placement the encoder reconstructs. -/
def headerPlacedB (d : Dictionary) (hdr : List Nat) (entries : List (String × Json)) : Bool :=
  entries.all fun p =>
    match d.field_by_name p.1 with
    | some f => contains_field hdr f
    | none => false

/-- Every member of a Body object names a field contained in neither
standard component. -/
def bodyPlacedB (d : Dictionary) (hdr trl : List Nat)
    (entries : List (String × Json)) : Bool :=
  entries.all fun p =>
    match d.field_by_name p.1 with
    | some f => !contains_field hdr f && !contains_field trl f
    | none => false

/-- Every member of a Trailer object names a field contained in
`StandardTrailer` but not in `StandardHeader`. -/
def trailerPlacedB (d : Dictionary) (hdr trl : List Nat)
    (entries : List (String × Json)) : Bool :=
  entries.all fun p =>
    match d.field_by_name p.1 with
    | some f => !contains_field hdr f && contains_field trl f
    | none => false

/-! ### Theorems -/

/-- C3: the spec's element-name table maps `byteVector` to `Bytes`, and
flags the code's mapping to `Decimal` as a typo.  The code indeed maps
`byteVector` to `Primitive(Decimal)` (while the rest of the table agrees
with the spec), so the claim describes intended, not actual, behaviour:
evaluated at the failing input `"byteVector"`, the loader produces
`Decimal`, not `Bytes`. -/
theorem fast_byteVector_element_maps_to_Decimal :
    Template.xml_tag_to_instruction "byteVector" = .ok (.Primitive .Decimal) ∧
    FieldType.Primitive .Decimal ≠ FieldType.Primitive .Bytes ∧
    Template.xml_tag_to_instruction "string" = .ok (.Primitive .Ascii) ∧
    Template.xml_tag_to_instruction "uInt32" = .ok (.Primitive .UInt32) ∧
    Template.xml_tag_to_instruction "length" = .ok (.Primitive .UInt32) ∧
    Template.xml_tag_to_instruction "int32" = .ok (.Primitive .SInt32) ∧
    Template.xml_tag_to_instruction "uInt64" = .ok (.Primitive .UInt64) ∧
    Template.xml_tag_to_instruction "int64" = .ok (.Primitive .SInt64) ∧
    Template.xml_tag_to_instruction "decimal" = .ok (.Primitive .Decimal) ∧
    Template.xml_tag_to_instruction "group" = .err .S1 := by
  refine ⟨rfl, by decide, rfl, rfl, rfl, rfl, rfl, rfl, rfl, rfl⟩

/-- C7: the claim says a sequence child missing the required `id` attribute
makes loading fail with a `StaticError`, synchronously and without panic
(as the missing `name` attribute does).  The code instead calls
`node.attribute("id").unwrap()`: at the failing input
`<string name="BeginString"/>` (no `id`), `FieldInstruction::from_template`
panics, while a missing `name` is a proper `StaticError::S1` and a missing
`presence` attribute defaults to mandatory. -/
theorem fast_missing_id_attribute_panics :
    FieldInstruction.from_template ⟨"string", [("name", "BeginString")]⟩ = .panic ∧
    FieldInstruction.from_template ⟨"string", [("id", "8")]⟩ = .err .S1 ∧
    FieldInstruction.from_template ⟨"string", [("name", "BeginString"), ("id", "8")]⟩ =
      .ok { field_type := .Primitive .Ascii, name := "BeginString", id := 8,
            mandatory := true, operator := .Constant } := by
  refine ⟨rfl, rfl, rfl⟩

/-- C10: for every sequence child element whose required attributes and
element name are in order, loading succeeds no matter what the `presence`
attribute holds; the instruction is mandatory exactly when `presence` is
absent or equal to `"true"`, so any other value (for example a typo like
`"optional"`) is silently treated as optional. -/
theorem fast_presence_attribute_tolerance (node : XmlNode) (nm idAttr : String)
    (id : Nat) (ft : FieldType)
    (hname : node.attribute "name" = some nm)
    (hid : node.attribute "id" = some idAttr)
    (hparse : rustParseU32 idAttr = some id)
    (htype : Template.xml_tag_to_instruction node.tag_name = .ok ft) :
    ∃ inst, FieldInstruction.from_template node = .ok inst ∧
      inst.is_mandatory = decide (((node.attribute "presence").getD "true") = "true") ∧
      (inst.is_mandatory = true ↔
        node.attribute "presence" = none ∨ node.attribute "presence" = some "true") := by
  refine ⟨⟨ft, nm, id, decide (((node.attribute "presence").getD "true") = "true"),
    .Constant⟩, ?_, rfl, ?_⟩
  · simp only [FieldInstruction.from_template, hname, hid, hparse, htype]
  · cases hp : node.attribute "presence" with
    | none => simp [FieldInstruction.is_mandatory, hp]
    | some p =>
      simp only [FieldInstruction.is_mandatory, hp, Option.getD_some, decide_eq_true_eq]
      constructor
      · intro h; exact Or.inr (by rw [h])
      · rintro (h | h)
        · exact absurd h (by simp)
        · cases h; rfl

/-- Witness for C10: a node whose `presence` attribute is the typo
`"optional"` loads without error and is not mandatory. -/
theorem fast_presence_attribute_tolerance_witness :
    ∃ inst, FieldInstruction.from_template
        ⟨"string", [("name", "x"), ("id", "8"), ("presence", "optional")]⟩ = .ok inst ∧
      inst.is_mandatory = decide (((XmlNode.attribute
        ⟨"string", [("name", "x"), ("id", "8"), ("presence", "optional")]⟩
        "presence").getD "true") = "true") ∧
      (inst.is_mandatory = true ↔
        XmlNode.attribute ⟨"string", [("name", "x"), ("id", "8"), ("presence", "optional")]⟩
          "presence" = none ∨
        XmlNode.attribute ⟨"string", [("name", "x"), ("id", "8"), ("presence", "optional")]⟩
          "presence" = some "true") :=
  fast_presence_attribute_tolerance _ "x" "8" 8 (.Primitive .Ascii) rfl rfl rfl rfl

/-- C8: every enumerated Version retrieves (without filesystem access — the
store is a pure lookup table) a non-empty document in the image of the XML
renderer, and distinct Versions retrieve distinct documents. -/
theorem embedded_quickfix_specs_nonempty_wellformed_distinct :
    (∀ v : Version, ∃ s root, Version.get_quickfix_spec v = some s ∧
      s ≠ "" ∧ XmlNode.render root = s) ∧
    (∀ v w : Version, v ≠ w →
      Version.get_quickfix_spec v ≠ Version.get_quickfix_spec w) := by
  constructor
  · intro v
    cases v <;> exact ⟨_, quickFixRoot _, rfl, by decide, rfl⟩
  · intro v w h
    cases v <;> cases w <;> first
      | exact absurd rfl h
      | decide

/-- Witness for C8: the two hypotheses of the distinctness half, discharged
at FIX 4.0 versus FIX 4.1. -/
theorem embedded_quickfix_specs_witness :
    Version.get_quickfix_spec .Fix40 ≠ Version.get_quickfix_spec .Fix41 :=
  embedded_quickfix_specs_nonempty_wellformed_distinct.2 .Fix40 .Fix41 (by decide)

/-- C6: input that does not parse as JSON decodes to `Syntax`; JSON whose
top level lacks `Header`, `Body` or `Trailer` (or where such a member is
not an object) decodes to `Schema`. -/
theorem json_decode_structural_check :
    (∀ c : Codec, Codec.decode c none = .err .Syntax) ∧
    (∀ (c : Codec) (J : Json),
      (J.getMember "Header").bind Json.asObj = none ∨
      (J.getMember "Body").bind Json.asObj = none ∨
      (J.getMember "Trailer").bind Json.asObj = none →
      Codec.decode c (some J) = .err .Schema) := by
  constructor
  · intro c; rfl
  · intro c J h
    unfold Codec.decode
    rcases h with h | h | h
    · simp only [h]
    · cases hH : (J.getMember "Header").bind Json.asObj <;> simp only [hH, h]
    · cases hH : (J.getMember "Header").bind Json.asObj <;>
        cases hB : (J.getMember "Body").bind Json.asObj <;> simp only [hH, hB, h]

/-- Witness for C6: a JSON object with no members is rejected with
`Schema`. -/
theorem json_decode_structural_check_witness :
    Codec.decode exCodec (some (.obj [])) = .err .Schema :=
  json_decode_structural_check.2 exCodec (.obj []) (Or.inl rfl)

/-- C9: the claim says decode never panics and rejects a repeating-group
array whose element is not a JSON object with a `DecodeError`.  The code's
`decode_component_block` calls `value.as_object().unwrap()`: at the failing
input below (the known group field `NoMDEntries` holding the array
`["oops"]`), decode reaches that `unwrap` and panics instead of returning
an error. -/
theorem json_decode_group_element_nonobject_panics :
    Codec.decode exCodec (some (.obj
      [ ("Header", .obj [("BeginString", .str "FIX.4.4"), ("MsgType", .str "W")]),
        ("Body", .obj [("NoMDEntries", .arr [.str "oops"])]),
        ("Trailer", .obj []) ])) = .panic ∧
    decode_component_block exDict (.str "oops") = .panic := ⟨rfl, rfl⟩

/-- C5 counterexample: a document whose top-level objects are all present
and whose `Header.BeginString` is present but unknown (`"FIX.9.9"`), yet
with no `MsgType`.  The claim as stated requires `InvalidMsgType`; the code
checks `MsgType` before `BeginString` and returns `Schema`. -/
theorem json_decode_envelope_lookup_counterexample :
    Codec.decode exCodec (some (.obj
      [ ("Header", .obj [("BeginString", .str "FIX.9.9")]),
        ("Body", .obj []),
        ("Trailer", .obj []) ])) = .err .Schema ∧
    DecodeError.Schema ≠ DecodeError.InvalidMsgType := ⟨rfl, by decide⟩

/-- C5 (amended): with the top-level objects present, a missing (or
non-string) `Header.BeginString` yields `Schema`; and provided
`Header.MsgType` is present as a string, a `Header.BeginString` string that
names no dictionary known to the codec yields `InvalidMsgType` (when
`MsgType` is missing, `Schema` is returned first instead). -/
theorem json_decode_envelope_lookup (c : Codec) (J : Json)
    (header body trailer : List (String × Json))
    (hH : (J.getMember "Header").bind Json.asObj = some header)
    (hB : (J.getMember "Body").bind Json.asObj = some body)
    (hT : (J.getMember "Trailer").bind Json.asObj = some trailer) :
    ((alookup "BeginString" header).bind Json.asStr = none →
      Codec.decode c (some J) = .err .Schema) ∧
    (∀ mt bs, (alookup "MsgType" header).bind Json.asStr = some mt →
      (alookup "BeginString" header).bind Json.asStr = some bs →
      alookup bs c.dictionaries = none →
      Codec.decode c (some J) = .err .InvalidMsgType) := by
  constructor
  · intro h
    unfold Codec.decode
    cases hmt : (alookup "MsgType" header).bind Json.asStr <;>
      simp only [hH, hB, hT, hmt, h]
  · intro mt bs hmt hbs hdict
    unfold Codec.decode
    simp only [hH, hB, hT, hmt, hbs, hdict]

/-- Witness for C5: the unknown version string `"FIX.9.9"`, with `MsgType`
present, is rejected with `InvalidMsgType`. -/
theorem json_decode_envelope_lookup_witness :
    Codec.decode exCodec (some (.obj
      [ ("Header", .obj [("MsgType", .str "W"), ("BeginString", .str "FIX.9.9")]),
        ("Body", .obj []),
        ("Trailer", .obj []) ])) = .err .InvalidMsgType :=
  (json_decode_envelope_lookup exCodec
    (.obj [ ("Header", .obj [("MsgType", .str "W"), ("BeginString", .str "FIX.9.9")]),
            ("Body", .obj []), ("Trailer", .obj []) ])
    [("MsgType", .str "W"), ("BeginString", .str "FIX.9.9")] [] []
    rfl rfl rfl).2 "W" "FIX.9.9" rfl rfl rfl

mutual

theorem translate_of_translatableB (d : Dictionary) :
    ∀ v : FixFieldValue, translatableB d v = true → ∃ out, Codec.translate d v = some out
  | .String s, _ => ⟨.str s, rfl⟩
  | .Group gs, h => by
    obtain ⟨outs, houts⟩ :=
      translateGroups_of_translatableGroupsB d gs (by simpa [translatableB] using h)
    exact ⟨.arr outs, by simp [Codec.translate, houts]⟩
  | .Int _, h => by simp [translatableB] at h

theorem translateGroups_of_translatableGroupsB (d : Dictionary) :
    ∀ gs, translatableGroupsB d gs = true → ∃ outs, translateGroups d gs = some outs
  | [], _ => ⟨[], rfl⟩
  | g :: rest, h => by
    have h2 := h
    simp only [translatableGroupsB, Bool.and_eq_true] at h2
    obtain ⟨ents, hents⟩ := translateEntries_of_translatableEntriesB d g h2.1 []
    obtain ⟨outs, houts⟩ := translateGroups_of_translatableGroupsB d rest h2.2
    exact ⟨.obj ents :: outs, by simp [translateGroups, hents, houts]⟩

theorem translateEntries_of_translatableEntriesB (d : Dictionary) :
    ∀ g, translatableEntriesB d g = true →
      ∀ acc, ∃ ents, translateEntries d g acc = some ents
  | [], _, acc => ⟨acc, rfl⟩
  | (t, v) :: rest, h, acc => by
    have h2 := h
    simp only [translatableEntriesB, Bool.and_eq_true] at h2
    obtain ⟨f, hf⟩ := Option.isSome_iff_exists.mp h2.1.1
    obtain ⟨out, hout⟩ := translate_of_translatableB d v h2.1.2
    obtain ⟨ents, hents⟩ :=
      translateEntries_of_translatableEntriesB d rest h2.2 (mapInsert acc f.name out)
    exact ⟨ents, by simp [translateEntries, hf, hout, hents]⟩

end

theorem encodeFields_ok (d : Dictionary) (hdr trl : List Nat) :
    ∀ (fields : List (Nat × FixFieldValue)) mh mb mt,
      (fields.all fun p => (d.field_by_tag p.1).isSome && translatableB d p.2) = true →
      ∃ out, encodeFields d hdr trl fields mh mb mt = .ok out := by
  intro fields
  induction fields with
  | nil => exact fun mh mb mt _ => ⟨(mh, mb, mt), rfl⟩
  | cons p rest ih =>
    intro mh mb mt h
    obtain ⟨t, v⟩ := p
    simp only [List.all_cons, Bool.and_eq_true] at h
    obtain ⟨f, hf⟩ := Option.isSome_iff_exists.mp h.1.1
    obtain ⟨out, hout⟩ := translate_of_translatableB d v h.1.2
    by_cases hh : contains_field hdr f = true
    · obtain ⟨o, ho⟩ := ih (mapInsert mh f.name out) mb mt (by simp [List.all_eq_true] at h ⊢; exact h.2)
      exact ⟨o, by simp [encodeFields, hf, hout, hh, ho]⟩
    · by_cases ht : contains_field trl f = true
      · obtain ⟨o, ho⟩ := ih mh mb (mapInsert mt f.name out) (by simp [List.all_eq_true] at h ⊢; exact h.2)
        exact ⟨o, by simp [encodeFields, hf, hout, hh, ht, ho]⟩
      · obtain ⟨o, ho⟩ := ih mh (mapInsert mb f.name out) mt (by simp [List.all_eq_true] at h ⊢; exact h.2)
        exact ⟨o, by simp [encodeFields, hf, hout, hh, ht, ho]⟩

theorem encodeFields_err_dictionary (d : Dictionary) (hdr trl : List Nat) :
    ∀ (fields : List (Nat × FixFieldValue)) mh mb mt,
      encodeFields d hdr trl fields mh mb mt = .err .Dictionary →
      ∃ t v, (t, v) ∈ fields ∧ d.field_by_tag t = none := by
  intro fields
  induction fields with
  | nil => intro mh mb mt h; simp [encodeFields] at h
  | cons p rest ih =>
    intro mh mb mt h
    obtain ⟨t, v⟩ := p
    cases hf : d.field_by_tag t with
    | none => exact ⟨t, v, List.mem_cons_self _ _, hf⟩
    | some f =>
      simp only [encodeFields, hf] at h
      cases hout : Codec.translate d v with
      | none => simp [hout] at h
      | some out =>
        simp only [hout] at h
        by_cases hh : contains_field hdr f = true
        · simp only [hh, if_true] at h
          obtain ⟨t2, v2, hm, hn⟩ := ih _ _ _ h
          exact ⟨t2, v2, List.mem_cons_of_mem _ hm, hn⟩
        · by_cases ht : contains_field trl f = true
          · simp only [hh, ht, if_false, if_true] at h
            obtain ⟨t2, v2, hm, hn⟩ := ih _ _ _ h
            exact ⟨t2, v2, List.mem_cons_of_mem _ hm, hn⟩
          · simp only [hh, ht, if_false] at h
            obtain ⟨t2, v2, hm, hn⟩ := ih _ _ _ h
            exact ⟨t2, v2, List.mem_cons_of_mem _ hm, hn⟩

/-- C4 counterexample: a message whose tag 8 is the known version
`"FIX.4.4"` — so the claim as stated promises success — but which lacks
tag 35 (`MsgType`); encode returns `Err(Dictionary)`. -/
theorem json_encode_known_tag8_counterexample :
    alookup "FIX.4.4" exCodec.dictionaries = some exDict ∧
    Codec.encode exCodec ⟨[(8, .String "FIX.4.4")]⟩ = .err .Dictionary := ⟨rfl, rfl⟩

theorem selectDictionary_eq_some {c : Codec} {m : Message} {d : Dictionary}
    (h : selectDictionary c m = some d) :
    ∃ s, alookup 8 m.fields = some (.String s) ∧ alookup s c.dictionaries = some d := by
  unfold selectDictionary at h
  cases h8 : alookup 8 m.fields with
  | none => rw [h8] at h; exact absurd h (by simp)
  | some fv =>
    cases fv with
    | String s => rw [h8] at h; simp only [] at h; exact ⟨s, rfl, h⟩
    | Int i => rw [h8] at h; exact absurd h (by simp)
    | Group g => rw [h8] at h; exact absurd h (by simp)

/-- C4 (amended): encode returns `Err(Dictionary)` when tag 8 is missing,
not a string, or names no known dictionary; additionally when tag 35
(`MsgType`) is missing or not a string, and when some field's tag is
unknown to the selected dictionary.  It succeeds whenever tag 8 selects a
dictionary (whose standard components resolve), tag 35 is a string, and
every field has a known tag and a translatable (string-or-group,
recursively) value; and `Err(Dictionary)` arises only from the three
listed conditions. -/
theorem json_encode_dictionary_error (c : Codec) (m : Message) :
    (selectDictionary c m = none → Codec.encode c m = .err .Dictionary) ∧
    (∀ d hdr trl, selectDictionary c m = some d →
      d.component_by_name "StandardHeader" = some hdr →
      d.component_by_name "StandardTrailer" = some trl →
      (∀ s, m.get_field 35 ≠ some (.String s)) →
      Codec.encode c m = .err .Dictionary) ∧
    (∀ d hdr trl s, selectDictionary c m = some d →
      d.component_by_name "StandardHeader" = some hdr →
      d.component_by_name "StandardTrailer" = some trl →
      m.get_field 35 = some (.String s) →
      (m.fields.all fun p => (d.field_by_tag p.1).isSome && translatableB d p.2) = true →
      ∃ j, Codec.encode c m = .ok j) ∧
    (Codec.encode c m = .err .Dictionary →
      selectDictionary c m = none ∨
      ∃ d, selectDictionary c m = some d ∧
        ((∀ s, m.get_field 35 ≠ some (.String s)) ∨
         ∃ t v, (t, v) ∈ m.fields ∧ d.field_by_tag t = none)) := by
  refine ⟨?_, ?_, ?_, ?_⟩
  · intro h
    unfold selectDictionary at h
    unfold Codec.encode
    cases h8 : alookup 8 m.fields with
    | none => simp only [h8]
    | some fv =>
      cases fv with
      | String s =>
        rw [h8] at h; simp only [] at h
        simp only [h8, h]
      | Int i => simp only [h8]
      | Group g => simp only [h8]
  · intro d hdr trl hsel hh ht h35
    obtain ⟨s, h8, hd⟩ := selectDictionary_eq_some hsel
    unfold Codec.encode
    cases hg : m.get_field 35 with
    | none => simp only [h8, hd, hh, ht, hg]
    | some v =>
      cases v with
      | String s2 => exact absurd hg (h35 s2)
      | Int i => simp only [h8, hd, hh, ht, hg]
      | Group g => simp only [h8, hd, hh, ht, hg]
  · intro d hdr trl s hsel hh ht h35 hall
    obtain ⟨s0, h8, hd⟩ := selectDictionary_eq_some hsel
    obtain ⟨⟨mh, mb, mt⟩, hout⟩ :=
      encodeFields_ok d hdr trl m.fields [("MsgType", .str s)] [] [] hall
    refine ⟨.obj [("Header", .obj mh), ("Body", .obj mb), ("Trailer", .obj mt)], ?_⟩
    unfold Codec.encode
    simp only [h8, hd, hh, ht, h35, hout]
  · intro h
    unfold Codec.encode at h
    cases h8 : alookup 8 m.fields with
    | none => exact Or.inl (by unfold selectDictionary; simp only [h8])
    | some fv =>
      cases fv with
      | String s =>
        rw [h8] at h; simp only [] at h
        cases hd : alookup s c.dictionaries with
        | none =>
          exact Or.inl (by unfold selectDictionary; simp only [h8, hd])
        | some d =>
          rw [hd] at h; simp only [] at h
          refine Or.inr ⟨d, by unfold selectDictionary; simp only [h8, hd], ?_⟩
          cases hh : d.component_by_name "StandardHeader" with
          | none => rw [hh] at h; exact absurd h (by simp)
          | some hdr =>
            rw [hh] at h; simp only [] at h
            cases ht : d.component_by_name "StandardTrailer" with
            | none => rw [ht] at h; exact absurd h (by simp)
            | some trl =>
              rw [ht] at h; simp only [] at h
              cases hg : m.get_field 35 with
              | none =>
                exact Or.inl fun s2 hc => Option.noConfusion hc
              | some v =>
                cases v with
                | String s2 =>
                  rw [hg] at h; simp only [] at h
                  refine Or.inr ?_
                  cases hef : encodeFields d hdr trl m.fields
                      [("MsgType", .str s2)] [] [] with
                  | ok out => rw [hef] at h; exact absurd h (by simp)
                  | err e =>
                    cases e
                    exact encodeFields_err_dictionary d hdr trl _ _ _ _ hef
                  | panic => rw [hef] at h; exact absurd h (by simp)
                | Int i =>
                  exact Or.inl fun s2 hc => by simp at hc
                | Group g =>
                  exact Or.inl fun s2 hc => by simp at hc
      | Int i => exact Or.inl (by unfold selectDictionary; simp only [h8])
      | Group g => exact Or.inl (by unfold selectDictionary; simp only [h8])

/-- Witness for C4: a message with known tag 8 and string tag 35 encodes
successfully. -/
theorem json_encode_dictionary_error_witness :
    ∃ j, Codec.encode exCodec ⟨[(8, .String "FIX.4.4"), (35, .String "A")]⟩ = .ok j :=
  (json_encode_dictionary_error exCodec ⟨[(8, .String "FIX.4.4"), (35, .String "A")]⟩).2.2.1
    exDict [8, 35, 34, 49] [89, 93] "A" rfl rfl rfl rfl rfl

theorem field_by_name_eq {d : Dictionary} {k : String} {f : FieldDef}
    (h : d.field_by_name k = some f) : f.name = k ∧ f ∈ d.fields := by
  have h1 := List.find?_some h
  have h2 := List.mem_of_find?_eq_some h
  exact ⟨by simpa using h1, h2⟩

theorem field_by_tag_eq {d : Dictionary} {t : Nat} {f : FieldDef}
    (h : d.field_by_tag t = some f) : f.tag = t ∧ f ∈ d.fields := by
  have h1 := List.find?_some h
  have h2 := List.mem_of_find?_eq_some h
  exact ⟨by simpa using h1, h2⟩

theorem field_by_tag_of_mem {d : Dictionary} (hwf : d.Wf) {f : FieldDef}
    (hm : f ∈ d.fields) : d.field_by_tag f.tag = some f := by
  cases hfind : d.field_by_tag f.tag with
  | none =>
    exfalso
    have : ∀ g ∈ d.fields, ¬(decide (g.tag = f.tag) = true) :=
      List.find?_eq_none.mp hfind
    exact this f hm (by simp)
  | some g =>
    obtain ⟨hgt, hgm⟩ := field_by_tag_eq hfind
    have := List.inj_on_of_nodup_map hwf.1 hgm hm hgt
    rw [this]

theorem field_by_name_of_mem {d : Dictionary} (hwf : d.Wf) {f : FieldDef}
    (hm : f ∈ d.fields) : d.field_by_name f.name = some f := by
  cases hfind : d.field_by_name f.name with
  | none =>
    exfalso
    have : ∀ g ∈ d.fields, ¬(decide (g.name = f.name) = true) :=
      List.find?_eq_none.mp hfind
    exact this f hm (by simp)
  | some g =>
    obtain ⟨hgt, hgm⟩ := field_by_name_eq hfind
    have := List.inj_on_of_nodup_map hwf.2 hgm hm hgt
    rw [this]

theorem name_inj {d : Dictionary} (hwf : d.Wf) {t1 t2 : Nat} {f1 f2 : FieldDef}
    (h1 : d.field_by_tag t1 = some f1) (h2 : d.field_by_tag t2 = some f2)
    (hn : f1.name = f2.name) : t1 = t2 := by
  obtain ⟨ht1, hm1⟩ := field_by_tag_eq h1
  obtain ⟨ht2, hm2⟩ := field_by_tag_eq h2
  have := List.inj_on_of_nodup_map hwf.2 hm1 hm2 hn
  rw [← ht1, ← ht2, this]

theorem alookup_mapInsert_self (acc : List (String × Json)) (k : String) (v : Json) :
    alookup k (mapInsert acc k v) = some v := by
  induction acc with
  | nil => simp [mapInsert, alookup]
  | cons p rest ih =>
    obtain ⟨k2, v2⟩ := p
    by_cases h : k2 = k
    · simp [mapInsert, h, alookup]
    · simp [mapInsert, h, alookup, Ne.symm h, ih]

theorem alookup_mapInsert_ne (acc : List (String × Json)) (k k2 : String) (v : Json)
    (h : k2 ≠ k) : alookup k2 (mapInsert acc k v) = alookup k2 acc := by
  induction acc with
  | nil => simp [mapInsert, alookup, h]
  | cons p rest ih =>
    obtain ⟨k3, v3⟩ := p
    by_cases h3 : k3 = k
    · subst h3
      simp [mapInsert, alookup, h]
    · by_cases h2 : k2 = k3
      · simp [mapInsert, h3, alookup, h2]
      · simp [mapInsert, h3, alookup, h2, ih]

theorem isRenderEntries_mapInsert {acc : List (String × Json)} {k : String} {v : Json}
    (hacc : isRenderEntries acc = true) (hv : isRenderShape v = true) :
    isRenderEntries (mapInsert acc k v) = true := by
  induction acc with
  | nil => simp [mapInsert, isRenderEntries, hv]
  | cons p rest ih =>
    obtain ⟨k2, v2⟩ := p
    simp only [isRenderEntries, Bool.and_eq_true] at hacc
    by_cases h : k2 = k
    · simp [mapInsert, h, isRenderEntries, hv, hacc.2]
    · simp [mapInsert, h, isRenderEntries, hacc.1, ih hacc.2]

mutual

theorem translate_isRenderShape (d : Dictionary) :
    ∀ (v : FixFieldValue) (out : Json), Codec.translate d v = some out →
      isRenderShape out = true
  | .String s, out, h => by
    simp only [Codec.translate] at h
    cases h
    rfl
  | .Group gs, out, h => by
    simp only [Codec.translate] at h
    cases houts : translateGroups d gs with
    | none => rw [houts] at h; exact Option.noConfusion h
    | some outs =>
      rw [houts] at h; simp only [] at h
      cases h
      simpa [isRenderShape] using translateGroups_isRenderElems d gs outs houts
  | .Int i, out, h => by
    simp only [Codec.translate] at h
    exact Option.noConfusion h

theorem translateGroups_isRenderElems (d : Dictionary) :
    ∀ (gs : List (List (Nat × FixFieldValue))) (outs : List Json),
      translateGroups d gs = some outs → isRenderElems outs = true
  | [], outs, h => by
    simp only [translateGroups] at h
    cases h
    rfl
  | g :: rest, outs, h => by
    simp only [translateGroups] at h
    cases hents : translateEntries d g [] with
    | none => rw [hents] at h; exact Option.noConfusion h
    | some ents =>
      rw [hents] at h; simp only [] at h
      cases houts : translateGroups d rest with
      | none => rw [houts] at h; exact Option.noConfusion h
      | some outs2 =>
        rw [houts] at h; simp only [] at h
        cases h
        have h1 := translateEntries_isRenderEntries d g [] ents hents rfl
        have h2 := translateGroups_isRenderElems d rest outs2 houts
        simp [isRenderElems, isRenderElem, h1, h2]

theorem translateEntries_isRenderEntries (d : Dictionary) :
    ∀ (g : List (Nat × FixFieldValue)) (acc : List (String × Json))
      (ents : List (String × Json)),
      translateEntries d g acc = some ents → isRenderEntries acc = true →
      isRenderEntries ents = true
  | [], acc, ents, h, hacc => by
    simp only [translateEntries] at h
    cases h
    exact hacc
  | (t, v) :: rest, acc, ents, h, hacc => by
    simp only [translateEntries] at h
    cases hf : d.field_by_tag t with
    | none => rw [hf] at h; exact Option.noConfusion h
    | some f =>
      rw [hf] at h; simp only [] at h
      cases hout : Codec.translate d v with
      | none => rw [hout] at h; exact Option.noConfusion h
      | some out =>
        rw [hout] at h; simp only [] at h
        have hsh := translate_isRenderShape d v out hout
        exact translateEntries_isRenderEntries d rest _ ents h
          (isRenderEntries_mapInsert hacc hsh)

end

theorem translateGroups_elements (d : Dictionary) :
    ∀ (gs : List (List (Nat × FixFieldValue))) (outs : List Json),
      translateGroups d gs = some outs → ∀ e ∈ outs, ∃ ents, e = .obj ents := by
  intro gs
  induction gs with
  | nil =>
    intro outs h
    simp only [translateGroups] at h
    cases h
    simp
  | cons g rest ih =>
    intro outs h
    simp only [translateGroups] at h
    cases hents : translateEntries d g [] with
    | none => rw [hents] at h; exact Option.noConfusion h
    | some ents =>
      rw [hents] at h; simp only [] at h
      cases houts : translateGroups d rest with
      | none => rw [houts] at h; exact Option.noConfusion h
      | some outs2 =>
        rw [houts] at h; simp only [] at h
        cases h
        intro e he
        rcases List.mem_cons.mp he with he | he
        · exact ⟨ents, he⟩
        · exact ih outs2 houts e he

theorem encodeFields_preserve (d : Dictionary) (hdr trl : List Nat) :
    ∀ (fields : List (Nat × FixFieldValue)) mh mb mt H B T,
      encodeFields d hdr trl fields mh mb mt = .ok (H, B, T) →
      ∀ k, (∀ t v f, (t, v) ∈ fields → d.field_by_tag t = some f → f.name ≠ k) →
      alookup k H = alookup k mh ∧ alookup k B = alookup k mb ∧
        alookup k T = alookup k mt := by
  intro fields
  induction fields with
  | nil =>
    intro mh mb mt H B T h k _
    simp only [encodeFields] at h
    cases h
    exact ⟨rfl, rfl, rfl⟩
  | cons p rest ih =>
    intro mh mb mt H B T h k hk
    obtain ⟨t, v⟩ := p
    simp only [encodeFields] at h
    cases hf : d.field_by_tag t with
    | none => rw [hf] at h; exact RResult.noConfusion h
    | some f =>
      rw [hf] at h; simp only [] at h
      cases hout : Codec.translate d v with
      | none => rw [hout] at h; exact RResult.noConfusion h
      | some out =>
        rw [hout] at h; simp only [] at h
        have hne : f.name ≠ k := hk t v f (List.mem_cons_self _ _) hf
        have hk2 : ∀ t2 v2 f2, (t2, v2) ∈ rest → d.field_by_tag t2 = some f2 →
            f2.name ≠ k := fun t2 v2 f2 hm hf2 => hk t2 v2 f2 (List.mem_cons_of_mem _ hm) hf2
        by_cases hh : contains_field hdr f = true
        · rw [if_pos hh] at h
          obtain ⟨e1, e2, e3⟩ := ih _ _ _ _ _ _ h k hk2
          exact ⟨e1.trans (alookup_mapInsert_ne _ _ _ _ (Ne.symm hne)), e2, e3⟩
        · rw [if_neg hh] at h
          by_cases ht : contains_field trl f = true
          · rw [if_pos ht] at h
            obtain ⟨e1, e2, e3⟩ := ih _ _ _ _ _ _ h k hk2
            exact ⟨e1, e2, e3.trans (alookup_mapInsert_ne _ _ _ _ (Ne.symm hne))⟩
          · rw [if_neg ht] at h
            obtain ⟨e1, e2, e3⟩ := ih _ _ _ _ _ _ h k hk2
            exact ⟨e1, e2.trans (alookup_mapInsert_ne _ _ _ _ (Ne.symm hne)), e3⟩

theorem encodeFields_insert (d : Dictionary) (hdr trl : List Nat) :
    ∀ (pre : List (Nat × FixFieldValue)) t v post mh mb mt H B T f out,
      encodeFields d hdr trl (pre ++ (t, v) :: post) mh mb mt = .ok (H, B, T) →
      d.field_by_tag t = some f → Codec.translate d v = some out →
      (∀ t2 v2 f2, (t2, v2) ∈ post → d.field_by_tag t2 = some f2 → f2.name ≠ f.name) →
      (contains_field hdr f = true → alookup f.name H = some out) ∧
      (contains_field hdr f = false → contains_field trl f = true →
        alookup f.name T = some out) ∧
      (contains_field hdr f = false → contains_field trl f = false →
        alookup f.name B = some out) := by
  intro pre
  induction pre with
  | nil =>
    intro t v post mh mb mt H B T f out h hf hout hpost
    rw [List.nil_append] at h
    simp only [encodeFields] at h
    rw [hf] at h; simp only [] at h
    rw [hout] at h; simp only [] at h
    by_cases hh : contains_field hdr f = true
    · rw [if_pos hh] at h
      obtain ⟨e1, _, _⟩ := encodeFields_preserve d hdr trl post _ _ _ _ _ _ h f.name hpost
      refine ⟨fun _ => e1.trans (alookup_mapInsert_self _ _ _), ?_, ?_⟩
      · intro hc; rw [hc] at hh; exact Bool.noConfusion hh
      · intro hc; rw [hc] at hh; exact Bool.noConfusion hh
    · rw [if_neg hh] at h
      have hhf : contains_field hdr f = false := Bool.not_eq_true _ ▸ Bool.eq_false_iff.mpr hh
      by_cases ht : contains_field trl f = true
      · rw [if_pos ht] at h
        obtain ⟨_, _, e3⟩ := encodeFields_preserve d hdr trl post _ _ _ _ _ _ h f.name hpost
        refine ⟨fun hc => absurd hc hh, fun _ _ => e3.trans (alookup_mapInsert_self _ _ _), ?_⟩
        · intro _ hc; rw [hc] at ht; exact Bool.noConfusion ht
      · rw [if_neg ht] at h
        obtain ⟨_, e2, _⟩ := encodeFields_preserve d hdr trl post _ _ _ _ _ _ h f.name hpost
        refine ⟨fun hc => absurd hc hh, fun _ hc => absurd hc ht, ?_⟩
        exact fun _ _ => e2.trans (alookup_mapInsert_self _ _ _)
  | cons p pre2 ih =>
    intro t v post mh mb mt H B T f out h hf hout hpost
    obtain ⟨t0, v0⟩ := p
    rw [List.cons_append] at h
    simp only [encodeFields] at h
    cases hf0 : d.field_by_tag t0 with
    | none => rw [hf0] at h; exact RResult.noConfusion h
    | some f0 =>
      rw [hf0] at h; simp only [] at h
      cases hout0 : Codec.translate d v0 with
      | none => rw [hout0] at h; exact RResult.noConfusion h
      | some out0 =>
        rw [hout0] at h; simp only [] at h
        by_cases hh : contains_field hdr f0 = true
        · rw [if_pos hh] at h
          exact ih t v post _ _ _ _ _ _ f out h hf hout hpost
        · rw [if_neg hh] at h
          by_cases ht : contains_field trl f0 = true
          · rw [if_pos ht] at h
            exact ih t v post _ _ _ _ _ _ f out h hf hout hpost
          · rw [if_neg ht] at h
            exact ih t v post _ _ _ _ _ _ f out h hf hout hpost

theorem encodeFields_ok_all (d : Dictionary) (hdr trl : List Nat) :
    ∀ (fields : List (Nat × FixFieldValue)) mh mb mt out,
      encodeFields d hdr trl fields mh mb mt = .ok out →
      ∀ t v, (t, v) ∈ fields →
        ∃ f o, d.field_by_tag t = some f ∧ Codec.translate d v = some o := by
  intro fields
  induction fields with
  | nil => intro mh mb mt out _ t v hm; exact absurd hm (List.not_mem_nil _)
  | cons p rest ih =>
    intro mh mb mt out h t v hm
    obtain ⟨t0, v0⟩ := p
    simp only [encodeFields] at h
    cases hf0 : d.field_by_tag t0 with
    | none => rw [hf0] at h; exact RResult.noConfusion h
    | some f0 =>
      rw [hf0] at h; simp only [] at h
      cases hout0 : Codec.translate d v0 with
      | none => rw [hout0] at h; exact RResult.noConfusion h
      | some out0 =>
        rw [hout0] at h; simp only [] at h
        rcases List.mem_cons.mp hm with hm | hm
        · obtain ⟨e1, e2⟩ := Prod.mk.injEq .. ▸ hm
          cases hm
          exact ⟨f0, out0, hf0, hout0⟩
        · by_cases hh : contains_field hdr f0 = true
          · rw [if_pos hh] at h; exact ih _ _ _ _ h t v hm
          · rw [if_neg hh] at h
            by_cases ht : contains_field trl f0 = true
            · rw [if_pos ht] at h; exact ih _ _ _ _ h t v hm
            · rw [if_neg ht] at h; exact ih _ _ _ _ h t v hm

theorem contains_field_true_iff {c : List Nat} {f : FieldDef} :
    contains_field c f = true ↔ f.tag ∈ c := by
  simp [contains_field]

/-- C2: whenever encode succeeds, the result is a `Header`/`Body`/`Trailer`
object; every message field with a `FieldDef` contained in `StandardHeader`
is emitted (under its FIX name, with its translated value) in the Header
object, every field contained in `StandardTrailer` in the Trailer object,
and every other field in the Body object; and each emitted value is a JSON
string for a scalar and an array of objects (recursively of the same
shape) for a group.  Hypotheses: the standard components resolve and are
disjoint, the dictionary satisfies its uniqueness invariants, and the
message's tag map has no duplicate tags (a `BTreeMap` cannot). -/
theorem json_encode_partition_postcondition (c : Codec) (m : Message) (d : Dictionary)
    (hdr trl : List Nat) (j : Json)
    (hsel : selectDictionary c m = some d)
    (hh : d.component_by_name "StandardHeader" = some hdr)
    (ht : d.component_by_name "StandardTrailer" = some trl)
    (hdisj : ∀ t, t ∈ hdr → t ∉ trl)
    (hwf : d.Wf)
    (htags : (m.fields.map Prod.fst).Nodup)
    (henc : Codec.encode c m = .ok j) :
    ∃ H B T, j = .obj [("Header", .obj H), ("Body", .obj B), ("Trailer", .obj T)] ∧
      ∀ t v, (t, v) ∈ m.fields →
        ∃ f out, d.field_by_tag t = some f ∧ Codec.translate d v = some out ∧
          isRenderShape out = true ∧
          (∀ s, v = .String s → out = .str s) ∧
          (∀ gs, v = .Group gs → ∃ elems, out = .arr elems ∧
            ∀ e ∈ elems, ∃ ents, e = .obj ents) ∧
          (contains_field hdr f = true → alookup f.name H = some out) ∧
          (contains_field trl f = true → alookup f.name T = some out) ∧
          (contains_field hdr f = false → contains_field trl f = false →
            alookup f.name B = some out) := by
  obtain ⟨s0, h8, hd⟩ := selectDictionary_eq_some hsel
  unfold Codec.encode at henc
  rw [h8] at henc; simp only [] at henc
  rw [hd] at henc; simp only [] at henc
  rw [hh] at henc; simp only [] at henc
  rw [ht] at henc; simp only [] at henc
  cases hg : m.get_field 35 with
  | none => rw [hg] at henc; exact RResult.noConfusion henc
  | some v35 =>
    rw [hg] at henc
    cases v35 with
    | Int i => exact RResult.noConfusion henc
    | Group g => exact RResult.noConfusion henc
    | String msgty =>
      simp only [] at henc
      cases hef : encodeFields d hdr trl m.fields [("MsgType", .str msgty)] [] [] with
      | err e => rw [hef] at henc; exact RResult.noConfusion henc
      | panic => rw [hef] at henc; exact RResult.noConfusion henc
      | ok trip =>
        obtain ⟨H, B, T⟩ := trip
        rw [hef] at henc; simp only [] at henc
        cases henc
        refine ⟨H, B, T, rfl, ?_⟩
        intro t v hm
        obtain ⟨f, out, hf, hout⟩ := encodeFields_ok_all d hdr trl _ _ _ _ _ hef t v hm
        obtain ⟨pre, post, hsplit⟩ := List.append_of_mem hm
        have hpost : ∀ t2 v2 f2, (t2, v2) ∈ post → d.field_by_tag t2 = some f2 →
            f2.name ≠ f.name := by
          intro t2 v2 f2 hm2 hf2 hn
          have ht2 : t2 = t := name_inj hwf hf2 hf hn
          subst ht2
          have : (m.fields.map Prod.fst) =
              pre.map Prod.fst ++ t2 :: post.map Prod.fst := by
            rw [hsplit]; simp
          rw [this] at htags
          have h2 := htags.of_append_right
          have h3 := (List.nodup_cons.mp h2).1
          exact h3 (List.mem_map.mpr ⟨(t2, v2), hm2, rfl⟩)
        rw [hsplit] at hef
        obtain ⟨eH, eT, eB⟩ :=
          encodeFields_insert d hdr trl pre t v post _ _ _ _ _ _ f out hef hf hout hpost
        refine ⟨f, out, hf, hout, translate_isRenderShape d v out hout, ?_, ?_, eH, ?_, eB⟩
        · intro s hs
          subst hs
          simp only [Codec.translate] at hout
          exact (Option.some.injEq .. ▸ hout).symm
        · intro gs hgs
          subst hgs
          simp only [Codec.translate] at hout
          cases houts : translateGroups d gs with
          | none => rw [houts] at hout; exact Option.noConfusion hout
          | some outs =>
            rw [houts] at hout; simp only [] at hout
            cases hout
            exact ⟨outs, rfl, translateGroups_elements d gs outs houts⟩
        · intro htrl
          have hhf : contains_field hdr f = false := by
            cases hcc : contains_field hdr f with
            | false => rfl
            | true =>
              exact absurd (contains_field_true_iff.mp htrl)
                (hdisj f.tag (contains_field_true_iff.mp hcc))
          exact eT hhf htrl

/-- Witness for C2: encoding a market-data-like message with a group. -/
theorem json_encode_partition_postcondition_witness :
    ∃ H B T, Json.obj
        [ ("Header", .obj [("MsgType", .str "W"), ("BeginString", .str "FIX.4.4")]),
          ("Body", .obj [("NoMDEntries", .arr [.obj [("MDEntryType", .str "0")]])]),
          ("Trailer", .obj []) ] =
      .obj [("Header", .obj H), ("Body", .obj B), ("Trailer", .obj T)] ∧
      ∀ t v, (t, v) ∈ (Message.mk [(8, .String "FIX.4.4"), (35, .String "W"),
          (268, .Group [[(269, .String "0")]])]).fields →
        ∃ f out, exDict.field_by_tag t = some f ∧ Codec.translate exDict v = some out ∧
          isRenderShape out = true ∧
          (∀ s, v = .String s → out = .str s) ∧
          (∀ gs, v = .Group gs → ∃ elems, out = .arr elems ∧
            ∀ e ∈ elems, ∃ ents, e = .obj ents) ∧
          (contains_field [8, 35, 34, 49] f = true → alookup f.name H = some out) ∧
          (contains_field [89, 93] f = true → alookup f.name T = some out) ∧
          (contains_field [8, 35, 34, 49] f = false → contains_field [89, 93] f = false →
            alookup f.name B = some out) :=
  json_encode_partition_postcondition exCodec
    ⟨[(8, .String "FIX.4.4"), (35, .String "W"), (268, .Group [[(269, .String "0")]])]⟩
    exDict [8, 35, 34, 49] [89, 93] _
    rfl rfl rfl (by decide) (by constructor <;> decide) (by decide) rfl

theorem alookup_btInsert_self {β : Type} (l : List (Nat × β)) (k : Nat) (v : β) :
    alookup k (btInsert k v l) = some v := by
  induction l with
  | nil => simp [btInsert, alookup]
  | cons p rest ih =>
    obtain ⟨k2, v2⟩ := p
    by_cases h1 : k < k2
    · simp [btInsert, h1, alookup]
    · by_cases h2 : k = k2
      · simp [btInsert, h1, h2, alookup]
      · simp [btInsert, h1, h2, alookup, ih]

theorem alookup_btInsert_ne {β : Type} (l : List (Nat × β)) (k t : Nat) (v : β)
    (h : t ≠ k) : alookup t (btInsert k v l) = alookup t l := by
  induction l with
  | nil => simp [btInsert, alookup, h]
  | cons p rest ih =>
    obtain ⟨k2, v2⟩ := p
    by_cases h1 : k < k2
    · simp [btInsert, h1, alookup, h]
    · by_cases h2 : k = k2
      · subst h2
        simp [btInsert, h1, alookup, h]
      · by_cases h3 : t = k2
        · simp [btInsert, h1, h2, alookup, h3]
        · simp [btInsert, h1, h2, alookup, h3, ih]

theorem TMap.nil {β : Type} : TMap ([] : List (Nat × β)) := List.Pairwise.nil

theorem TMap_cons {β : Type} {p : Nat × β} {l : List (Nat × β)} :
    TMap (p :: l) ↔ (∀ b ∈ l, p.1 < b.1) ∧ TMap l :=
  List.pairwise_cons

theorem mem_btInsert {β : Type} {l : List (Nat × β)} {k : Nat} {v : β} {b : Nat × β}
    (h : b ∈ btInsert k v l) : b = (k, v) ∨ b ∈ l := by
  induction l with
  | nil => simpa [btInsert] using h
  | cons p rest ih =>
    obtain ⟨k2, v2⟩ := p
    by_cases h1 : k < k2
    · simp only [btInsert, if_pos h1] at h
      rcases List.mem_cons.mp h with h | h
      · exact Or.inl h
      · exact Or.inr h
    · by_cases h2 : k = k2
      · simp only [btInsert, if_neg h1, if_pos h2] at h
        rcases List.mem_cons.mp h with h | h
        · exact Or.inl h
        · exact Or.inr (List.mem_cons_of_mem _ h)
      · simp only [btInsert, if_neg h1, if_neg h2] at h
        rcases List.mem_cons.mp h with h | h
        · exact Or.inr (h ▸ List.mem_cons_self _ _)
        · rcases ih h with h | h
          · exact Or.inl h
          · exact Or.inr (List.mem_cons_of_mem _ h)

theorem TMap_btInsert {β : Type} {l : List (Nat × β)} (h : TMap l) (k : Nat) (v : β) :
    TMap (btInsert k v l) := by
  induction l with
  | nil => exact List.pairwise_singleton _ _
  | cons p rest ih =>
    obtain ⟨k2, v2⟩ := p
    rw [TMap_cons] at h
    by_cases h1 : k < k2
    · unfold btInsert
      rw [if_pos h1]
      refine TMap_cons.mpr ⟨?_, TMap_cons.mpr h⟩
      intro b hb
      rcases List.mem_cons.mp hb with hb | hb
      · rw [hb]; exact h1
      · exact h1.trans (h.1 b hb)
    · by_cases h2 : k = k2
      · unfold btInsert
        rw [if_neg h1, if_pos h2]
        subst h2
        exact TMap_cons.mpr h
      · unfold btInsert
        rw [if_neg h1, if_neg h2]
        refine TMap_cons.mpr ⟨?_, ih h.2⟩
        intro b hb
        rcases mem_btInsert hb with hb | hb
        · rw [hb]; omega
        · exact h.1 b hb

theorem TMap.keys_nodup {β : Type} {l : List (Nat × β)} (h : TMap l) :
    (l.map Prod.fst).Nodup := by
  induction l with
  | nil => exact List.nodup_nil
  | cons p rest ih =>
    rw [TMap_cons] at h
    rw [List.map_cons]
    refine List.nodup_cons.mpr ⟨?_, ih h.2⟩
    intro hc
    obtain ⟨q, hq, hqe⟩ := List.mem_map.mp hc
    exact absurd hqe.symm (Nat.ne_of_lt (h.1 q hq))

theorem mem_of_alookup {α β : Type} [DecidableEq α] {l : List (α × β)} {k : α} {v : β}
    (h : alookup k l = some v) : (k, v) ∈ l := by
  induction l with
  | nil => exact Option.noConfusion h
  | cons p rest ih =>
    obtain ⟨k2, v2⟩ := p
    by_cases h2 : k = k2
    · subst h2
      rw [alookup, if_pos rfl] at h
      cases h
      exact List.mem_cons_self _ _
    · rw [alookup, if_neg h2] at h
      exact List.mem_cons_of_mem _ (ih h)

theorem alookup_isSome_of_mem {α β : Type} [DecidableEq α] {l : List (α × β)} {k : α}
    {v : β} (h : (k, v) ∈ l) : (alookup k l).isSome = true := by
  induction l with
  | nil => exact absurd h (List.not_mem_nil _)
  | cons p rest ih =>
    obtain ⟨k2, v2⟩ := p
    by_cases h2 : k = k2
    · rw [alookup, if_pos h2]; rfl
    · rw [alookup, if_neg h2]
      rcases List.mem_cons.mp h with h | h
      · exact absurd (congrArg Prod.fst h) h2
      · exact ih h

theorem alookup_of_mem_nodup {α β : Type} [DecidableEq α] {l : List (α × β)}
    (hnd : (l.map Prod.fst).Nodup) {k : α} {v : β} (h : (k, v) ∈ l) :
    alookup k l = some v := by
  induction l with
  | nil => exact absurd h (List.not_mem_nil _)
  | cons p rest ih =>
    obtain ⟨k2, v2⟩ := p
    rw [List.map_cons] at hnd
    have hnd2 := List.nodup_cons.mp hnd
    by_cases hk : k = k2
    · subst hk
      rcases List.mem_cons.mp h with hh | hh
      · have hv : v = v2 := congrArg Prod.snd hh
        subst hv
        rw [alookup, if_pos rfl]
      · exact absurd (List.mem_map.mpr ⟨(k, v), hh, rfl⟩) hnd2.1
    · rw [alookup, if_neg hk]
      rcases List.mem_cons.mp h with hh | hh
      · exact absurd (congrArg Prod.fst hh) hk
      · exact ih hnd2.2 hh

theorem nodupKeysB_iff {α β : Type} [DecidableEq α] {l : List (α × β)} :
    nodupKeysB l = true ↔ (l.map Prod.fst).Nodup := by
  induction l with
  | nil => simp [nodupKeysB]
  | cons p rest ih =>
    obtain ⟨k, v⟩ := p
    rw [List.map_cons, List.nodup_cons, ← ih]
    rw [show nodupKeysB ((k, v) :: rest) =
      ((!rest.any fun p => decide (p.1 = k)) && nodupKeysB rest) from rfl]
    rw [Bool.and_eq_true, Bool.not_eq_true']
    constructor
    · rintro ⟨h1, h2⟩
      refine ⟨?_, h2⟩
      intro hc
      obtain ⟨q, hq, hqe⟩ := List.mem_map.mp hc
      have : rest.any (fun p => decide (p.1 = k)) = true :=
        List.any_eq_true.mpr ⟨q, hq, by simp [hqe]⟩
      rw [this] at h1
      exact Bool.noConfusion h1
    · rintro ⟨h1, h2⟩
      refine ⟨?_, h2⟩
      rw [Bool.eq_false_iff]
      intro hc
      obtain ⟨q, hq, hqe⟩ := List.any_eq_true.mp hc
      exact h1 (List.mem_map.mpr ⟨q, hq, by simpa using hqe⟩)

theorem decode_field_ok_tag {d : Dictionary} {k : String} {v : Json} {t0 : Nat}
    {fv : FixFieldValue} (h : decode_field d k v = .ok (t0, fv)) :
    ∃ f, d.field_by_name k = some f ∧ f.tag = t0 := by
  unfold decode_field at h
  cases hf : d.field_by_name k with
  | none => rw [hf] at h; exact RResult.noConfusion h
  | some f =>
    rw [hf] at h
    refine ⟨f, rfl, ?_⟩
    cases v with
    | str s => simp only [] at h; cases h; rfl
    | arr vs =>
      simp only [] at h
      cases hg : decode_groups d vs with
      | ok g => rw [hg] at h; simp only [] at h; cases h; rfl
      | err e => rw [hg] at h; exact RResult.noConfusion h
      | panic => rw [hg] at h; exact RResult.noConfusion h
    | null => simp only [] at h; exact RResult.noConfusion h
    | bool b => simp only [] at h; exact RResult.noConfusion h
    | num n => simp only [] at h; exact RResult.noConfusion h
    | obj e => simp only [] at h; exact RResult.noConfusion h

theorem decode_entries_preserve (d : Dictionary) :
    ∀ (entries : List (String × Json)) acc g,
      decode_entries d entries acc = .ok g →
      ∀ t, (∀ k v f, (k, v) ∈ entries → d.field_by_name k = some f → f.tag ≠ t) →
      alookup t g = alookup t acc := by
  intro entries
  induction entries with
  | nil =>
    intro acc g h t _
    simp only [decode_entries] at h
    cases h
    rfl
  | cons p rest ih =>
    intro acc g h t hk
    obtain ⟨k0, v0⟩ := p
    simp only [decode_entries] at h
    cases hd0 : decode_field d k0 v0 with
    | err e => rw [hd0] at h; exact RResult.noConfusion h
    | panic => rw [hd0] at h; exact RResult.noConfusion h
    | ok r =>
      obtain ⟨tag0, fv0⟩ := r
      rw [hd0] at h; simp only [] at h
      obtain ⟨f0, hf0, hf0t⟩ := decode_field_ok_tag hd0
      have ht0 : t ≠ tag0 := by
        intro he
        exact hk k0 v0 f0 (List.mem_cons_self _ _) hf0 (hf0t.trans he.symm)
      have := ih _ _ h t
        (fun k2 v2 f2 hm hf2 => hk k2 v2 f2 (List.mem_cons_of_mem _ hm) hf2)
      rw [this, alookup_btInsert_ne _ _ _ _ ht0]

theorem decode_entries_mem (d : Dictionary) :
    ∀ (pre : List (String × Json)) k v post acc g f,
      decode_entries d (pre ++ (k, v) :: post) acc = .ok g →
      d.field_by_name k = some f →
      (∀ k2 v2 f2, (k2, v2) ∈ post → d.field_by_name k2 = some f2 → f2.tag ≠ f.tag) →
      ∃ fv, decode_field d k v = .ok (f.tag, fv) ∧ alookup f.tag g = some fv := by
  intro pre
  induction pre with
  | nil =>
    intro k v post acc g f h hf hpost
    rw [List.nil_append] at h
    simp only [decode_entries] at h
    cases hd0 : decode_field d k v with
    | err e => rw [hd0] at h; exact RResult.noConfusion h
    | panic => rw [hd0] at h; exact RResult.noConfusion h
    | ok r =>
      obtain ⟨tag0, fv0⟩ := r
      rw [hd0] at h; simp only [] at h
      obtain ⟨f0, hf0, hf0t⟩ := decode_field_ok_tag hd0
      have hff : f0 = f := by
        rw [hf0] at hf
        exact Option.some.inj hf
      subst hff
      subst hf0t
      refine ⟨fv0, rfl, ?_⟩
      rw [decode_entries_preserve d post _ _ h f0.tag hpost]
      exact alookup_btInsert_self _ _ _
  | cons p0 pre2 ih =>
    intro k v post acc g f h hf hpost
    obtain ⟨k0, v0⟩ := p0
    rw [List.cons_append] at h
    simp only [decode_entries] at h
    cases hd0 : decode_field d k0 v0 with
    | err e => rw [hd0] at h; exact RResult.noConfusion h
    | panic => rw [hd0] at h; exact RResult.noConfusion h
    | ok r =>
      obtain ⟨tag0, fv0⟩ := r
      rw [hd0] at h; simp only [] at h
      exact ih k v post _ g f h hf hpost

theorem decode_entries_rev (d : Dictionary) :
    ∀ (entries : List (String × Json)) acc g,
      decode_entries d entries acc = .ok g →
      ∀ t fv, alookup t g = some fv →
        alookup t acc = some fv ∨
        ∃ k v f, (k, v) ∈ entries ∧ d.field_by_name k = some f ∧ f.tag = t ∧
          decode_field d k v = .ok (t, fv) := by
  intro entries
  induction entries with
  | nil =>
    intro acc g h t fv hl
    simp only [decode_entries] at h
    cases h
    exact Or.inl hl
  | cons p rest ih =>
    intro acc g h t fv hl
    obtain ⟨k0, v0⟩ := p
    simp only [decode_entries] at h
    cases hd0 : decode_field d k0 v0 with
    | err e => rw [hd0] at h; exact RResult.noConfusion h
    | panic => rw [hd0] at h; exact RResult.noConfusion h
    | ok r =>
      obtain ⟨tag0, fv0⟩ := r
      rw [hd0] at h; simp only [] at h
      rcases ih _ _ h t fv hl with hacc | ⟨k2, v2, f2, hm, hf2, hft, hdec⟩
      · by_cases he : t = tag0
        · subst he
          rw [alookup_btInsert_self] at hacc
          cases hacc
          obtain ⟨f0, hf0, hf0t⟩ := decode_field_ok_tag hd0
          exact Or.inr ⟨k0, v0, f0, List.mem_cons_self _ _, hf0, hf0t, hd0⟩
        · rw [alookup_btInsert_ne _ _ _ _ he] at hacc
          exact Or.inl hacc
      · exact Or.inr ⟨k2, v2, f2, List.mem_cons_of_mem _ hm, hf2, hft, hdec⟩

theorem decode_entries_TMap (d : Dictionary) :
    ∀ (entries : List (String × Json)) acc g,
      decode_entries d entries acc = .ok g → TMap acc → TMap g := by
  intro entries
  induction entries with
  | nil =>
    intro acc g h hacc
    simp only [decode_entries] at h
    cases h
    exact hacc
  | cons p rest ih =>
    intro acc g h hacc
    obtain ⟨k0, v0⟩ := p
    simp only [decode_entries] at h
    cases hd0 : decode_field d k0 v0 with
    | err e => rw [hd0] at h; exact RResult.noConfusion h
    | panic => rw [hd0] at h; exact RResult.noConfusion h
    | ok r =>
      obtain ⟨tag0, fv0⟩ := r
      rw [hd0] at h; simp only [] at h
      exact ih _ _ h (TMap_btInsert hacc tag0 fv0)

theorem decodeFields_eq (d : Dictionary) :
    ∀ (L : List (String × Json)) acc,
      decodeFields d L ⟨acc⟩ =
        match decode_entries d L acc with
        | .ok g => .ok ⟨g⟩
        | .err e => .err e
        | .panic => .panic := by
  intro L
  induction L with
  | nil => intro acc; rfl
  | cons p rest ih =>
    intro acc
    obtain ⟨k0, v0⟩ := p
    simp only [decodeFields, decode_entries]
    cases hd0 : decode_field d k0 v0 with
    | err e => rfl
    | panic => rfl
    | ok r =>
      obtain ⟨tag0, fv0⟩ := r
      exact ih (btInsert tag0 fv0 acc)

theorem translateEntries_preserve (d : Dictionary) :
    ∀ (g : List (Nat × FixFieldValue)) acc ents,
      translateEntries d g acc = some ents →
      ∀ k, (∀ t fv f, (t, fv) ∈ g → d.field_by_tag t = some f → f.name ≠ k) →
      alookup k ents = alookup k acc := by
  intro g
  induction g with
  | nil =>
    intro acc ents h k _
    simp only [translateEntries] at h
    cases h
    rfl
  | cons p rest ih =>
    intro acc ents h k hk
    obtain ⟨t0, fv0⟩ := p
    simp only [translateEntries] at h
    cases hf0 : d.field_by_tag t0 with
    | none => rw [hf0] at h; exact Option.noConfusion h
    | some f0 =>
      rw [hf0] at h; simp only [] at h
      cases hout0 : Codec.translate d fv0 with
      | none => rw [hout0] at h; exact Option.noConfusion h
      | some out0 =>
        rw [hout0] at h; simp only [] at h
        have hne : f0.name ≠ k := hk t0 fv0 f0 (List.mem_cons_self _ _) hf0
        have := ih _ _ h k
          (fun t2 fv2 f2 hm hf2 => hk t2 fv2 f2 (List.mem_cons_of_mem _ hm) hf2)
        rw [this, alookup_mapInsert_ne _ _ _ _ (Ne.symm hne)]

theorem translateEntries_mem (d : Dictionary) :
    ∀ (pre : List (Nat × FixFieldValue)) t fv post acc ents f out,
      translateEntries d (pre ++ (t, fv) :: post) acc = some ents →
      d.field_by_tag t = some f → Codec.translate d fv = some out →
      (∀ t2 fv2 f2, (t2, fv2) ∈ post → d.field_by_tag t2 = some f2 →
        f2.name ≠ f.name) →
      alookup f.name ents = some out := by
  intro pre
  induction pre with
  | nil =>
    intro t fv post acc ents f out h hf hout hpost
    rw [List.nil_append] at h
    simp only [translateEntries] at h
    rw [hf] at h; simp only [] at h
    rw [hout] at h; simp only [] at h
    rw [translateEntries_preserve d post _ _ h f.name hpost]
    exact alookup_mapInsert_self _ _ _
  | cons p0 pre2 ih =>
    intro t fv post acc ents f out h hf hout hpost
    obtain ⟨t0, fv0⟩ := p0
    rw [List.cons_append] at h
    simp only [translateEntries] at h
    cases hf0 : d.field_by_tag t0 with
    | none => rw [hf0] at h; exact Option.noConfusion h
    | some f0 =>
      rw [hf0] at h; simp only [] at h
      cases hout0 : Codec.translate d fv0 with
      | none => rw [hout0] at h; exact Option.noConfusion h
      | some out0 =>
        rw [hout0] at h; simp only [] at h
        exact ih t fv post _ ents f out h hf hout hpost

theorem translateEntries_rev (d : Dictionary) :
    ∀ (g : List (Nat × FixFieldValue)) acc ents,
      translateEntries d g acc = some ents →
      ∀ k, (alookup k ents).isSome = true →
        (alookup k acc).isSome = true ∨
        ∃ t fv f, (t, fv) ∈ g ∧ d.field_by_tag t = some f ∧ f.name = k := by
  intro g
  induction g with
  | nil =>
    intro acc ents h k hl
    simp only [translateEntries] at h
    cases h
    exact Or.inl hl
  | cons p rest ih =>
    intro acc ents h k hl
    obtain ⟨t0, fv0⟩ := p
    simp only [translateEntries] at h
    cases hf0 : d.field_by_tag t0 with
    | none => rw [hf0] at h; exact Option.noConfusion h
    | some f0 =>
      rw [hf0] at h; simp only [] at h
      cases hout0 : Codec.translate d fv0 with
      | none => rw [hout0] at h; exact Option.noConfusion h
      | some out0 =>
        rw [hout0] at h; simp only [] at h
        rcases ih _ _ h k hl with hacc | ⟨t2, fv2, f2, hm, hf2, hn⟩
        · by_cases he : k = f0.name
          · exact Or.inr ⟨t0, fv0, f0, List.mem_cons_self _ _, hf0, he.symm⟩
          · rw [alookup_mapInsert_ne _ _ _ _ he] at hacc
            exact Or.inl hacc
        · exact Or.inr ⟨t2, fv2, f2, List.mem_cons_of_mem _ hm, hf2, hn⟩

theorem translateEntries_ok_of (d : Dictionary) :
    ∀ (g : List (Nat × FixFieldValue)),
      (∀ t fv, (t, fv) ∈ g → ∃ f out, d.field_by_tag t = some f ∧
        Codec.translate d fv = some out) →
      ∀ acc, ∃ ents, translateEntries d g acc = some ents := by
  intro g
  induction g with
  | nil => exact fun _ acc => ⟨acc, rfl⟩
  | cons p rest ih =>
    intro hall acc
    obtain ⟨t0, fv0⟩ := p
    obtain ⟨f0, out0, hf0, hout0⟩ := hall t0 fv0 (List.mem_cons_self _ _)
    obtain ⟨ents, hents⟩ := ih
      (fun t fv hm => hall t fv (List.mem_cons_of_mem _ hm))
      (mapInsert acc f0.name out0)
    exact ⟨ents, by simp only [translateEntries, hf0, hout0, hents]⟩

theorem encodeFields_ok_of (d : Dictionary) (hdr trl : List Nat) :
    ∀ (fields : List (Nat × FixFieldValue)),
      (∀ t v, (t, v) ∈ fields → ∃ f out, d.field_by_tag t = some f ∧
        Codec.translate d v = some out) →
      ∀ mh mb mt, ∃ trip, encodeFields d hdr trl fields mh mb mt = .ok trip := by
  intro fields
  induction fields with
  | nil => exact fun _ mh mb mt => ⟨(mh, mb, mt), rfl⟩
  | cons p rest ih =>
    intro hall mh mb mt
    obtain ⟨t0, v0⟩ := p
    obtain ⟨f0, out0, hf0, hout0⟩ := hall t0 v0 (List.mem_cons_self _ _)
    have hrest := fun t v hm => hall t v (List.mem_cons_of_mem _ hm)
    by_cases hh : contains_field hdr f0 = true
    · obtain ⟨trip, htrip⟩ := ih hrest (mapInsert mh f0.name out0) mb mt
      exact ⟨trip, by simp only [encodeFields, hf0, hout0, if_pos hh, htrip]⟩
    · by_cases ht : contains_field trl f0 = true
      · obtain ⟨trip, htrip⟩ := ih hrest mh mb (mapInsert mt f0.name out0)
        exact ⟨trip, by simp only [encodeFields, hf0, hout0, if_neg hh, if_pos ht, htrip]⟩
      · obtain ⟨trip, htrip⟩ := ih hrest mh (mapInsert mb f0.name out0) mt
        exact ⟨trip, by simp only [encodeFields, hf0, hout0, if_neg hh, if_neg ht, htrip]⟩

theorem encodeFields_rev (d : Dictionary) (hdr trl : List Nat) :
    ∀ (fields : List (Nat × FixFieldValue)) mh mb mt H B T,
      encodeFields d hdr trl fields mh mb mt = .ok (H, B, T) →
      ∀ k,
      ((alookup k H).isSome = true → (alookup k mh).isSome = true ∨
        ∃ t v f, (t, v) ∈ fields ∧ d.field_by_tag t = some f ∧ f.name = k ∧
          contains_field hdr f = true) ∧
      ((alookup k B).isSome = true → (alookup k mb).isSome = true ∨
        ∃ t v f, (t, v) ∈ fields ∧ d.field_by_tag t = some f ∧ f.name = k ∧
          contains_field hdr f = false ∧ contains_field trl f = false) ∧
      ((alookup k T).isSome = true → (alookup k mt).isSome = true ∨
        ∃ t v f, (t, v) ∈ fields ∧ d.field_by_tag t = some f ∧ f.name = k ∧
          contains_field hdr f = false ∧ contains_field trl f = true) := by
  intro fields
  induction fields with
  | nil =>
    intro mh mb mt H B T h k
    simp only [encodeFields] at h
    cases h
    exact ⟨fun h2 => Or.inl h2, fun h2 => Or.inl h2, fun h2 => Or.inl h2⟩
  | cons p rest ih =>
    intro mh mb mt H B T h k
    obtain ⟨t0, v0⟩ := p
    simp only [encodeFields] at h
    cases hf0 : d.field_by_tag t0 with
    | none => rw [hf0] at h; exact RResult.noConfusion h
    | some f0 =>
      rw [hf0] at h; simp only [] at h
      cases hout0 : Codec.translate d v0 with
      | none => rw [hout0] at h; exact RResult.noConfusion h
      | some out0 =>
        rw [hout0] at h; simp only [] at h
        by_cases hh : contains_field hdr f0 = true
        · rw [if_pos hh] at h
          obtain ⟨e1, e2, e3⟩ := ih _ _ _ _ _ _ h k
          refine ⟨?_, ?_, ?_⟩
          · intro hs
            rcases e1 hs with hs | ⟨t2, v2, f2, hm, hf2, hn, hp⟩
            · by_cases he : k = f0.name
              · exact Or.inr ⟨t0, v0, f0, List.mem_cons_self _ _, hf0, he.symm, hh⟩
              · rw [alookup_mapInsert_ne _ _ _ _ he] at hs
                exact Or.inl hs
            · exact Or.inr ⟨t2, v2, f2, List.mem_cons_of_mem _ hm, hf2, hn, hp⟩
          · intro hs
            rcases e2 hs with hs | ⟨t2, v2, f2, hm, hf2, hn, hp1, hp2⟩
            · exact Or.inl hs
            · exact Or.inr ⟨t2, v2, f2, List.mem_cons_of_mem _ hm, hf2, hn, hp1, hp2⟩
          · intro hs
            rcases e3 hs with hs | ⟨t2, v2, f2, hm, hf2, hn, hp1, hp2⟩
            · exact Or.inl hs
            · exact Or.inr ⟨t2, v2, f2, List.mem_cons_of_mem _ hm, hf2, hn, hp1, hp2⟩
        · rw [if_neg hh] at h
          have hhf : contains_field hdr f0 = false := Bool.eq_false_iff.mpr hh
          by_cases ht : contains_field trl f0 = true
          · rw [if_pos ht] at h
            obtain ⟨e1, e2, e3⟩ := ih _ _ _ _ _ _ h k
            refine ⟨?_, ?_, ?_⟩
            · intro hs
              rcases e1 hs with hs | ⟨t2, v2, f2, hm, hf2, hn, hp⟩
              · exact Or.inl hs
              · exact Or.inr ⟨t2, v2, f2, List.mem_cons_of_mem _ hm, hf2, hn, hp⟩
            · intro hs
              rcases e2 hs with hs | ⟨t2, v2, f2, hm, hf2, hn, hp1, hp2⟩
              · exact Or.inl hs
              · exact Or.inr ⟨t2, v2, f2, List.mem_cons_of_mem _ hm, hf2, hn, hp1, hp2⟩
            · intro hs
              rcases e3 hs with hs | ⟨t2, v2, f2, hm, hf2, hn, hp1, hp2⟩
              · by_cases he : k = f0.name
                · exact Or.inr ⟨t0, v0, f0, List.mem_cons_self _ _, hf0, he.symm, hhf, ht⟩
                · rw [alookup_mapInsert_ne _ _ _ _ he] at hs
                  exact Or.inl hs
              · exact Or.inr ⟨t2, v2, f2, List.mem_cons_of_mem _ hm, hf2, hn, hp1, hp2⟩
          · rw [if_neg ht] at h
            have htf : contains_field trl f0 = false := Bool.eq_false_iff.mpr ht
            obtain ⟨e1, e2, e3⟩ := ih _ _ _ _ _ _ h k
            refine ⟨?_, ?_, ?_⟩
            · intro hs
              rcases e1 hs with hs | ⟨t2, v2, f2, hm, hf2, hn, hp⟩
              · exact Or.inl hs
              · exact Or.inr ⟨t2, v2, f2, List.mem_cons_of_mem _ hm, hf2, hn, hp⟩
            · intro hs
              rcases e2 hs with hs | ⟨t2, v2, f2, hm, hf2, hn, hp1, hp2⟩
              · by_cases he : k = f0.name
                · exact Or.inr ⟨t0, v0, f0, List.mem_cons_self _ _, hf0, he.symm, hhf, htf⟩
                · rw [alookup_mapInsert_ne _ _ _ _ he] at hs
                  exact Or.inl hs
              · exact Or.inr ⟨t2, v2, f2, List.mem_cons_of_mem _ hm, hf2, hn, hp1, hp2⟩
            · intro hs
              rcases e3 hs with hs | ⟨t2, v2, f2, hm, hf2, hn, hp1, hp2⟩
              · exact Or.inl hs
              · exact Or.inr ⟨t2, v2, f2, List.mem_cons_of_mem _ hm, hf2, hn, hp1, hp2⟩

theorem block_roundtrip (d : Dictionary) (hwf : d.Wf) (e : List (String × Json))
    (hnd : nodupKeysB e = true)
    (hpk : ∀ k v, (k, v) ∈ e → DecPacket d k v)
    (g : List (Nat × FixFieldValue))
    (hg : decode_entries d e [] = .ok g) :
    ∃ ents, translateEntries d g [] = some ents ∧ JsonEquiv (.obj ents) (.obj e) := by
  have hTg : TMap g := decode_entries_TMap d e [] g hg TMap.nil
  have hndg := hTg.keys_nodup
  have hgsrc : ∀ t fv, (t, fv) ∈ g → ∃ k v f, (k, v) ∈ e ∧
      d.field_by_name k = some f ∧ f.tag = t ∧ decode_field d k v = .ok (t, fv) := by
    intro t fv hm
    have hlook := alookup_of_mem_nodup hndg hm
    rcases decode_entries_rev d e [] g hg t fv hlook with habs | hsrc
    · exact absurd habs (by simp [alookup])
    · exact hsrc
  have htrans : ∀ t fv, (t, fv) ∈ g → ∃ f out, d.field_by_tag t = some f ∧
      Codec.translate d fv = some out := by
    intro t fv hm
    obtain ⟨k, v, f, hme, hfk, hft, hdec⟩ := hgsrc t fv hm
    obtain ⟨f2, fv2, out2, hf2, hdec2, htr2, _, _⟩ := hpk k v hme
    have hff : f = f2 := by
      rw [hfk] at hf2
      exact Option.some.inj hf2
    subst hff
    have hpair : (f.tag, fv2) = (t, fv) := by
      have := hdec2.symm.trans hdec
      cases this
      rfl
    have hfv : fv2 = fv := congrArg Prod.snd hpair
    have htag : f.tag = t := congrArg Prod.fst hpair
    refine ⟨f, out2, ?_, hfv ▸ htr2⟩
    rw [← htag]
    exact field_by_tag_of_mem hwf (field_by_name_eq hfk).2
  obtain ⟨ents, hents⟩ := translateEntries_ok_of d g htrans []
  refine ⟨ents, hents, ?_⟩
  have K1 : ∀ k v, (k, v) ∈ e → ∃ out, alookup k ents = some out ∧ JsonEquiv out v := by
    intro k v hme
    obtain ⟨f, fv, out, hf, hdec, htr, hjeq, _⟩ := hpk k v hme
    obtain ⟨pre, post, hsplit⟩ := List.append_of_mem hme
    have hndk : (e.map Prod.fst).Nodup := nodupKeysB_iff.mp hnd
    have hknotin : ∀ k2 v2, (k2, v2) ∈ post → k2 ≠ k := by
      intro k2 v2 hm2 he
      subst he
      have heq : (e.map Prod.fst) = pre.map Prod.fst ++ k2 :: post.map Prod.fst := by
        rw [hsplit]; simp
      rw [heq] at hndk
      exact (List.nodup_cons.mp hndk.of_append_right).1
        (List.mem_map.mpr ⟨(k2, v2), hm2, rfl⟩)
    have hposttag : ∀ k2 v2 f2, (k2, v2) ∈ post → d.field_by_name k2 = some f2 →
        f2.tag ≠ f.tag := by
      intro k2 v2 f2 hm2 hf2 he
      have hf2m : f2 ∈ d.fields := (field_by_name_eq hf2).2
      have hfm : f ∈ d.fields := (field_by_name_eq hf).2
      have hffe : f2 = f := List.inj_on_of_nodup_map hwf.1 hf2m hfm he
      have hk2 : k2 = k := by
        rw [← (field_by_name_eq hf2).1, hffe, (field_by_name_eq hf).1]
      exact hknotin k2 v2 hm2 hk2
    rw [hsplit] at hg
    obtain ⟨fv2, hdec2, hlookg⟩ := decode_entries_mem d pre k v post [] g f hg hf hposttag
    have hfv : fv2 = fv := by
      have := hdec2.symm.trans hdec
      cases this
      rfl
    subst hfv
    have hgm : (f.tag, fv2) ∈ g := mem_of_alookup hlookg
    obtain ⟨pre2, post2, hsplit2⟩ := List.append_of_mem hgm
    have hftag : d.field_by_tag f.tag = some f :=
      field_by_tag_of_mem hwf (field_by_name_eq hf).2
    have hpost2 : ∀ t2 fv3 f2, (t2, fv3) ∈ post2 → d.field_by_tag t2 = some f2 →
        f2.name ≠ f.name := by
      intro t2 fv3 f2 hm2 hf2 he
      have ht2 : t2 = f.tag := name_inj hwf hf2 hftag he
      have heq : (g.map Prod.fst) = pre2.map Prod.fst ++ f.tag :: post2.map Prod.fst := by
        rw [hsplit2]; simp
      rw [heq] at hndg
      exact (List.nodup_cons.mp hndg.of_append_right).1
        (List.mem_map.mpr ⟨(t2, fv3), hm2, ht2⟩)
    rw [hsplit2] at hents
    have hlookents :=
      translateEntries_mem d pre2 f.tag fv2 post2 [] ents f out hents hftag htr hpost2
    rw [(field_by_name_eq hf).1] at hlookents
    exact ⟨out, hlookents, hjeq⟩
  have K2 : ∀ k, (alookup k ents).isSome = true → (alookup k e).isSome = true := by
    intro k hs
    rcases translateEntries_rev d g [] ents hents k hs with habs | ⟨t, fv, f2, hgm, hf2, hn⟩
    · simp [alookup] at habs
    · obtain ⟨k2, v2, f3, hme, hf3, hft3, _⟩ := hgsrc t fv hgm
      have hf3m : f3 ∈ d.fields := (field_by_name_eq hf3).2
      have hftag : d.field_by_tag f3.tag = some f3 := field_by_tag_of_mem hwf hf3m
      have hff : f2 = f3 := by
        rw [← hft3] at hf2
        rw [hftag] at hf2
        exact (Option.some.inj hf2).symm
      have hk : k = k2 := by
        rw [← hn, hff, (field_by_name_eq hf3).1]
      subst hk
      exact alookup_isSome_of_mem hme
  refine JsonEquiv.obj _ _ ?_ ?_
  · intro k
    cases hse : alookup k e with
    | some v =>
      obtain ⟨out, ho, _⟩ := K1 k v (mem_of_alookup hse)
      rw [ho]; rfl
    | none =>
      cases hsent : alookup k ents with
      | none => rfl
      | some o =>
        have := K2 k (by rw [hsent]; rfl)
        rw [hse] at this
        exact Bool.noConfusion this
  · intro k v1 v2 h1 h2
    obtain ⟨out, ho, hjeq⟩ := K1 k v2 (mem_of_alookup h2)
    have hv1 : v1 = out := by
      rw [h1] at ho
      exact Option.some.inj ho
    rw [hv1]
    exact hjeq

mutual

theorem roundtrip_field (d : Dictionary) (hwf : d.Wf) :
    ∀ (v : Json) (k : String), (d.field_by_name k).isSome = true →
      goodVal d v = true → DecPacket d k v
  | .str s, k, hk, _ => by
    obtain ⟨f, hf⟩ := Option.isSome_iff_exists.mp hk
    exact ⟨f, .String s, .str s, hf, by simp only [decode_field, hf], rfl,
      JsonEquiv.str s, fun s2 hs2 => by cases hs2; rfl⟩
  | .arr vs, k, hk, hgood => by
    obtain ⟨f, hf⟩ := Option.isSome_iff_exists.mp hk
    obtain ⟨gs, outs, hgs, houts, hlen, hzip⟩ :=
      roundtrip_groups d hwf vs (by simpa [goodVal] using hgood)
    refine ⟨f, .Group gs, .arr outs, hf, ?_, ?_, ?_, ?_⟩
    · simp only [decode_field, hf, hgs]
    · simp only [Codec.translate, houts]
    · exact JsonEquiv.arr outs vs hlen hzip
    · intro s hs; exact Json.noConfusion hs
  | .null, _, _, hgood => by simp [goodVal] at hgood
  | .bool b, _, _, hgood => by simp [goodVal] at hgood
  | .num n, _, _, hgood => by simp [goodVal] at hgood
  | .obj e, _, _, hgood => by simp [goodVal] at hgood

theorem roundtrip_groups (d : Dictionary) (hwf : d.Wf) :
    ∀ (vs : List Json), goodElems d vs = true →
      ∃ gs outs, decode_groups d vs = .ok gs ∧ translateGroups d gs = some outs ∧
        outs.length = vs.length ∧ ∀ x y, (x, y) ∈ outs.zip vs → JsonEquiv x y
  | [], _ => ⟨[], [], rfl, rfl, rfl, by simp⟩
  | v :: rest, h => by
    have h2 : goodElem d v = true ∧ goodElems d rest = true := by
      simpa [goodElems, Bool.and_eq_true] using h
    obtain ⟨e, g, ents, hve, hg, hents, hjeq⟩ := roundtrip_block d hwf v h2.1
    obtain ⟨gs, outs, hgs, houts, hlen, hzip⟩ := roundtrip_groups d hwf rest h2.2
    refine ⟨g :: gs, .obj ents :: outs, ?_, ?_, by simp [hlen], ?_⟩
    · simp only [decode_groups, hg, hgs]
    · simp only [translateGroups, hents, houts]
    · intro x y hxy
      rw [List.zip_cons_cons] at hxy
      rcases List.mem_cons.mp hxy with he | he
      · have hx : x = .obj ents := congrArg Prod.fst he
        have hy : y = v := congrArg Prod.snd he
        rw [hx, hy, hve]
        exact hjeq
      · exact hzip x y he

theorem roundtrip_block (d : Dictionary) (hwf : d.Wf) :
    ∀ (v : Json), goodElem d v = true →
      ∃ e g ents, v = .obj e ∧ decode_component_block d v = .ok g ∧
        translateEntries d g [] = some ents ∧ JsonEquiv (.obj ents) (.obj e)
  | .obj e, h => by
    have h2 : nodupKeysB e = true ∧ goodEntries d e = true := by
      simpa [goodElem, Bool.and_eq_true] using h
    have hpk := roundtrip_entries d hwf e h2.2
    obtain ⟨g, hg⟩ := hpk.1 []
    obtain ⟨ents, hents, hjeq⟩ := block_roundtrip d hwf e h2.1 hpk.2 g hg
    refine ⟨e, g, ents, rfl, ?_, hents, hjeq⟩
    simp only [decode_component_block]
    exact hg
  | .str s, h => by simp [goodElem] at h
  | .arr vs, h => by simp [goodElem] at h
  | .null, h => by simp [goodElem] at h
  | .bool b, h => by simp [goodElem] at h
  | .num n, h => by simp [goodElem] at h

theorem roundtrip_entries (d : Dictionary) (hwf : d.Wf) :
    ∀ (entries : List (String × Json)), goodEntries d entries = true →
      (∀ acc, ∃ g, decode_entries d entries acc = .ok g) ∧
      (∀ k v, (k, v) ∈ entries → DecPacket d k v)
  | [], _ => ⟨fun acc => ⟨acc, rfl⟩, fun k v hm => absurd hm (List.not_mem_nil _)⟩
  | (k0, v0) :: rest, h => by
    have h2 : (d.field_by_name k0).isSome = true ∧ goodVal d v0 = true ∧
        goodEntries d rest = true := by
      simpa [goodEntries, Bool.and_eq_true, and_assoc] using h
    have hpk0 := roundtrip_field d hwf v0 k0 h2.1 h2.2.1
    have hrest := roundtrip_entries d hwf rest h2.2.2
    constructor
    · intro acc
      obtain ⟨f, fv, out, hf, hdec, _, _, _⟩ := hpk0
      obtain ⟨g, hgg⟩ := hrest.1 (btInsert f.tag fv acc)
      exact ⟨g, by simp only [decode_entries, hdec, hgg]⟩
    · intro k v hm
      rcases List.mem_cons.mp hm with he | he
      · have hk : k = k0 := congrArg Prod.fst he
        have hv : v = v0 := congrArg Prod.snd he
        rw [hk, hv]
        exact hpk0
      · exact hrest.2 k v he

end

theorem headerPlacedB_mem {d : Dictionary} {hdr : List Nat}
    {entries : List (String × Json)} {k : String} {v : Json} {f : FieldDef}
    (hpl : headerPlacedB d hdr entries = true) (hm : (k, v) ∈ entries)
    (hf : d.field_by_name k = some f) : contains_field hdr f = true := by
  have h := List.all_eq_true.mp hpl (k, v) hm
  simpa only [hf] using h

theorem bodyPlacedB_mem {d : Dictionary} {hdr trl : List Nat}
    {entries : List (String × Json)} {k : String} {v : Json} {f : FieldDef}
    (hpl : bodyPlacedB d hdr trl entries = true) (hm : (k, v) ∈ entries)
    (hf : d.field_by_name k = some f) :
    contains_field hdr f = false ∧ contains_field trl f = false := by
  have h := List.all_eq_true.mp hpl (k, v) hm
  simp only [hf, Bool.and_eq_true, Bool.not_eq_true'] at h
  exact h

theorem trailerPlacedB_mem {d : Dictionary} {hdr trl : List Nat}
    {entries : List (String × Json)} {k : String} {v : Json} {f : FieldDef}
    (hpl : trailerPlacedB d hdr trl entries = true) (hm : (k, v) ∈ entries)
    (hf : d.field_by_name k = some f) :
    contains_field hdr f = false ∧ contains_field trl f = true := by
  have h := List.all_eq_true.mp hpl (k, v) hm
  simp only [hf, Bool.and_eq_true, Bool.not_eq_true'] at h
  exact h

theorem alookup_none_of_three {β : Type} (top : List (String × β))
    (hnd : nodupKeysB top = true) (hlen : top.length = 3)
    {vH vB vT : β}
    (hH : alookup "Header" top = some vH)
    (hB : alookup "Body" top = some vB)
    (hT : alookup "Trailer" top = some vT)
    (k : String) (h1 : k ≠ "Header") (h2 : k ≠ "Body") (h3 : k ≠ "Trailer") :
    alookup k top = none := by
  cases hk : alookup k top with
  | none => rfl
  | some v =>
    exfalso
    have hmem : ∀ (s : String) (w : β), alookup s top = some w → s ∈ top.map Prod.fst :=
      fun s w hw => List.mem_map.mpr ⟨(s, w), mem_of_alookup hw, rfl⟩
    have hsub : [k, "Header", "Body", "Trailer"] ⊆ top.map Prod.fst := by
      intro x hx
      simp only [List.mem_cons, List.not_mem_nil, or_false] at hx
      rcases hx with hx | hx | hx | hx
      · exact hx ▸ hmem k v hk
      · exact hx ▸ hmem _ _ hH
      · exact hx ▸ hmem _ _ hB
      · exact hx ▸ hmem _ _ hT
    have hnd4 : ([k, "Header", "Body", "Trailer"] : List String).Nodup := by
      refine List.nodup_cons.mpr ⟨?_, by decide⟩
      simp only [List.mem_cons, List.not_mem_nil, or_false]
      rintro (hx | hx | hx)
      · exact h1 hx
      · exact h2 hx
      · exact h3 hx
    have hle := (List.subperm_of_subset hnd4 hsub).length_le
    rw [List.length_map, hlen] at hle
    simp at hle

theorem exists_of_mem_keys {α β : Type} {l : List (α × β)} {k : α}
    (h : k ∈ l.map Prod.fst) : ∃ v, (k, v) ∈ l := by
  obtain ⟨p, hp, he⟩ := List.mem_map.mp h
  exact ⟨p.2, by rw [← he]; exact Prod.mk.eta.symm ▸ hp⟩

/-- C1 (amended): the decode-then-encode round trip.  For a well-formed
document accepted by decode whose top level consists of exactly the
`Header`, `Body` and `Trailer` objects (no duplicate keys anywhere), whose
fields are placed in the section the dictionary's standard components
assign them to, and whose dictionary satisfies the FIX invariants (unique
tags and names, `BeginString` = tag 8 and `MsgType` = tag 35 resolving),
encoding the decoded message succeeds and produces a JSON value equal to
the input modulo object-key ordering (and, at the byte level,
whitespace). -/
theorem json_roundtrip (c : Codec) (J : Json) (m : Message)
    (top hEnt bEnt tEnt : List (String × Json)) (mt bs : String)
    (d : Dictionary) (hdr trl : List Nat)
    (hJ : J = .obj top)
    (htopnd : nodupKeysB top = true)
    (htoplen : top.length = 3)
    (hHm : alookup "Header" top = some (.obj hEnt))
    (hBm : alookup "Body" top = some (.obj bEnt))
    (hTm : alookup "Trailer" top = some (.obj tEnt))
    (hmt : alookup "MsgType" hEnt = some (.str mt))
    (hbs : alookup "BeginString" hEnt = some (.str bs))
    (hdict : alookup bs c.dictionaries = some d)
    (hsh : d.component_by_name "StandardHeader" = some hdr)
    (hst : d.component_by_name "StandardTrailer" = some trl)
    (hwf : d.Wf)
    (hcal8 : d.field_by_name "BeginString" = some ⟨8, "BeginString"⟩)
    (hcal35 : d.field_by_name "MsgType" = some ⟨35, "MsgType"⟩)
    (hgH : goodEntries d hEnt = true) (hndH : nodupKeysB hEnt = true)
    (hplH : headerPlacedB d hdr hEnt = true)
    (hgB : goodEntries d bEnt = true) (hndB : nodupKeysB bEnt = true)
    (hplB : bodyPlacedB d hdr trl bEnt = true)
    (hgT : goodEntries d tEnt = true) (hndT : nodupKeysB tEnt = true)
    (hplT : trailerPlacedB d hdr trl tEnt = true)
    (hdec : Codec.decode c (some J) = .ok m) :
    ∃ J2, Codec.encode c m = .ok J2 ∧ JsonEquiv J2 J := by
  subst hJ
  have e1 : ((Json.obj top).getMember "Header").bind Json.asObj = some hEnt := by
    simp [Json.getMember, hHm, Json.asObj]
  have e2 : ((Json.obj top).getMember "Body").bind Json.asObj = some bEnt := by
    simp [Json.getMember, hBm, Json.asObj]
  have e3 : ((Json.obj top).getMember "Trailer").bind Json.asObj = some tEnt := by
    simp [Json.getMember, hTm, Json.asObj]
  have e4 : (alookup "MsgType" hEnt).bind Json.asStr = some mt := by
    simp [hmt, Json.asStr]
  have e5 : (alookup "BeginString" hEnt).bind Json.asStr = some bs := by
    simp [hbs, Json.asStr]
  unfold Codec.decode at hdec
  simp only [] at hdec
  rw [e1] at hdec; simp only [] at hdec
  rw [e2] at hdec; simp only [] at hdec
  rw [e3] at hdec; simp only [] at hdec
  rw [e4] at hdec; simp only [] at hdec
  rw [e5] at hdec; simp only [] at hdec
  rw [hdict] at hdec; simp only [] at hdec
  rw [show Message.default = (⟨[]⟩ : Message) from rfl, decodeFields_eq] at hdec
  cases hgL : decode_entries d (hEnt ++ bEnt ++ tEnt) [] with
  | err e => rw [hgL] at hdec; exact RResult.noConfusion hdec
  | panic => rw [hgL] at hdec; exact RResult.noConfusion hdec
  | ok g =>
  rw [hgL] at hdec; simp only [] at hdec
  cases hdec
  have hTg : TMap g := decode_entries_TMap d _ [] g hgL TMap.nil
  have hndg := hTg.keys_nodup
  have hpkL : ∀ k v, (k, v) ∈ hEnt ++ bEnt ++ tEnt → DecPacket d k v := by
    intro k v hm2
    rcases List.mem_append.mp hm2 with hm2 | hm2
    · rcases List.mem_append.mp hm2 with hm2 | hm2
      · exact (roundtrip_entries d hwf hEnt hgH).2 k v hm2
      · exact (roundtrip_entries d hwf bEnt hgB).2 k v hm2
    · exact (roundtrip_entries d hwf tEnt hgT).2 k v hm2
  have hdisjHB : List.Disjoint (hEnt.map Prod.fst) (bEnt.map Prod.fst) := by
    intro k hkH hkB
    obtain ⟨v1, hm1⟩ := exists_of_mem_keys hkH
    obtain ⟨v2, hm2⟩ := exists_of_mem_keys hkB
    obtain ⟨f1, _, _, hf1, _⟩ := (roundtrip_entries d hwf hEnt hgH).2 k v1 hm1
    obtain ⟨f2, _, _, hf2, _⟩ := (roundtrip_entries d hwf bEnt hgB).2 k v2 hm2
    have hff : f1 = f2 := by rw [hf1] at hf2; exact Option.some.inj hf2
    have hcH := headerPlacedB_mem hplH hm1 hf1
    have hcB := (bodyPlacedB_mem hplB hm2 hf2).1
    rw [hff, hcB] at hcH
    exact Bool.noConfusion hcH
  have hdisjHT : List.Disjoint (hEnt.map Prod.fst) (tEnt.map Prod.fst) := by
    intro k hkH hkT
    obtain ⟨v1, hm1⟩ := exists_of_mem_keys hkH
    obtain ⟨v2, hm2⟩ := exists_of_mem_keys hkT
    obtain ⟨f1, _, _, hf1, _⟩ := (roundtrip_entries d hwf hEnt hgH).2 k v1 hm1
    obtain ⟨f2, _, _, hf2, _⟩ := (roundtrip_entries d hwf tEnt hgT).2 k v2 hm2
    have hff : f1 = f2 := by rw [hf1] at hf2; exact Option.some.inj hf2
    have hcH := headerPlacedB_mem hplH hm1 hf1
    have hcT := (trailerPlacedB_mem hplT hm2 hf2).1
    rw [hff, hcT] at hcH
    exact Bool.noConfusion hcH
  have hdisjBT : List.Disjoint (bEnt.map Prod.fst) (tEnt.map Prod.fst) := by
    intro k hkB hkT
    obtain ⟨v1, hm1⟩ := exists_of_mem_keys hkB
    obtain ⟨v2, hm2⟩ := exists_of_mem_keys hkT
    obtain ⟨f1, _, _, hf1, _⟩ := (roundtrip_entries d hwf bEnt hgB).2 k v1 hm1
    obtain ⟨f2, _, _, hf2, _⟩ := (roundtrip_entries d hwf tEnt hgT).2 k v2 hm2
    have hff : f1 = f2 := by rw [hf1] at hf2; exact Option.some.inj hf2
    have hcB := (bodyPlacedB_mem hplB hm1 hf1).2
    have hcT := (trailerPlacedB_mem hplT hm2 hf2).2
    rw [hff, hcT] at hcB
    exact Bool.noConfusion hcB
  have hndL : (((hEnt ++ bEnt ++ tEnt)).map Prod.fst).Nodup := by
    rw [List.map_append, List.map_append]
    refine List.Nodup.append (List.Nodup.append ?_ ?_ hdisjHB) ?_ ?_
    · exact nodupKeysB_iff.mp hndH
    · exact nodupKeysB_iff.mp hndB
    · exact nodupKeysB_iff.mp hndT
    · intro k hk
      rcases List.mem_append.mp hk with hk | hk
      · exact hdisjHT hk
      · exact hdisjBT hk
  have hmemL : ∀ k v, (k, v) ∈ hEnt ++ bEnt ++ tEnt →
      ∃ f fv out, d.field_by_name k = some f ∧ decode_field d k v = .ok (f.tag, fv) ∧
        Codec.translate d fv = some out ∧ JsonEquiv out v ∧
        (∀ s, v = .str s → fv = .String s) ∧ alookup f.tag g = some fv := by
    intro k v hm2
    obtain ⟨f, fv, out, hf, hdecf, htr, hjeq, hsc⟩ := hpkL k v hm2
    obtain ⟨pre, post, hsplit⟩ := List.append_of_mem hm2
    have hknotin : ∀ k2 v2, (k2, v2) ∈ post → k2 ≠ k := by
      intro k2 v2 hmp he
      subst he
      have heq : ((hEnt ++ bEnt ++ tEnt).map Prod.fst) =
          pre.map Prod.fst ++ k2 :: post.map Prod.fst := by
        rw [hsplit]; simp
      rw [heq] at hndL
      exact (List.nodup_cons.mp hndL.of_append_right).1
        (List.mem_map.mpr ⟨(k2, v2), hmp, rfl⟩)
    have hposttag : ∀ k2 v2 f2, (k2, v2) ∈ post → d.field_by_name k2 = some f2 →
        f2.tag ≠ f.tag := by
      intro k2 v2 f2 hmp hf2 he
      have hffe : f2 = f := List.inj_on_of_nodup_map hwf.1
        (field_by_name_eq hf2).2 (field_by_name_eq hf).2 he
      have hk2 : k2 = k := by
        rw [← (field_by_name_eq hf2).1, hffe, (field_by_name_eq hf).1]
      exact hknotin k2 v2 hmp hk2
    rw [hsplit] at hgL
    obtain ⟨fv2, hdec2, hlookg⟩ := decode_entries_mem d pre k v post [] g f hgL hf hposttag
    have hfv : fv2 = fv := by
      have hp := hdec2.symm.trans hdecf
      cases hp
      rfl
    subst hfv
    exact ⟨f, fv2, out, hf, hdecf, htr, hjeq, hsc, hlookg⟩
  have hbs8 : alookup 8 g = some (.String bs) := by
    have hmL : ("BeginString", Json.str bs) ∈ hEnt ++ bEnt ++ tEnt :=
      List.mem_append.mpr (Or.inl (List.mem_append.mpr (Or.inl (mem_of_alookup hbs))))
    obtain ⟨f, fv, out, hf, _, _, _, hsc, hlook⟩ := hmemL _ _ hmL
    rw [hcal8] at hf
    have hfe : (⟨8, "BeginString"⟩ : FieldDef) = f := Option.some.inj hf
    rw [← hfe] at hlook
    simp only [] at hlook
    rw [hsc bs rfl] at hlook
    exact hlook
  have hmt35 : alookup 35 g = some (.String mt) := by
    have hmL : ("MsgType", Json.str mt) ∈ hEnt ++ bEnt ++ tEnt :=
      List.mem_append.mpr (Or.inl (List.mem_append.mpr (Or.inl (mem_of_alookup hmt))))
    obtain ⟨f, fv, out, hf, _, _, _, hsc, hlook⟩ := hmemL _ _ hmL
    rw [hcal35] at hf
    have hfe : (⟨35, "MsgType"⟩ : FieldDef) = f := Option.some.inj hf
    rw [← hfe] at hlook
    simp only [] at hlook
    rw [hsc mt rfl] at hlook
    exact hlook
  have hsrcg : ∀ t fv, (t, fv) ∈ g → ∃ k v f, (k, v) ∈ hEnt ++ bEnt ++ tEnt ∧
      d.field_by_name k = some f ∧ f.tag = t ∧ decode_field d k v = .ok (t, fv) := by
    intro t fv hm2
    have hlook := alookup_of_mem_nodup hndg hm2
    rcases decode_entries_rev d _ [] g hgL t fv hlook with habs | hsrc
    · simp [alookup] at habs
    · exact hsrc
  have htransg : ∀ t fv, (t, fv) ∈ g → ∃ f out, d.field_by_tag t = some f ∧
      Codec.translate d fv = some out := by
    intro t fv hm2
    obtain ⟨k, v, f, hme, hfk, hft, hdecf⟩ := hsrcg t fv hm2
    obtain ⟨f2, fv2, out2, hf2, hdec2, htr2, _, _, _⟩ := hmemL k v hme
    have hff : f2 = f := by rw [hfk] at hf2; exact (Option.some.inj hf2).symm
    subst hff
    have hpair : (f2.tag, fv2) = (t, fv) := by
      have hp := hdec2.symm.trans hdecf
      cases hp
      rfl
    have hfv : fv2 = fv := congrArg Prod.snd hpair
    have htag : f2.tag = t := congrArg Prod.fst hpair
    refine ⟨f2, out2, ?_, hfv ▸ htr2⟩
    rw [← htag]
    exact field_by_tag_of_mem hwf (field_by_name_eq hf2).2
  obtain ⟨⟨H, B, T⟩, hEF⟩ :=
    encodeFields_ok_of d hdr trl g htransg [("MsgType", .str mt)] [] []
  refine ⟨.obj [("Header", .obj H), ("Body", .obj B), ("Trailer", .obj T)], ?_, ?_⟩
  · unfold Codec.encode
    simp only [Message.get_field]
    simp only [hbs8, hdict, hsh, hst, hmt35, hEF]
  · have hsecH : JsonEquiv (.obj H) (.obj hEnt) := by
      have dir1 : ∀ k v, alookup k hEnt = some v →
          ∃ out, alookup k H = some out ∧ JsonEquiv out v := by
        intro k v hke
        have hmH : (k, v) ∈ hEnt := mem_of_alookup hke
        have hmL : (k, v) ∈ hEnt ++ bEnt ++ tEnt :=
          List.mem_append.mpr (Or.inl (List.mem_append.mpr (Or.inl hmH)))
        obtain ⟨f, fv, out, hf, hdecf, htr, hjeq, _, hlookg⟩ := hmemL k v hmL
        have hcH : contains_field hdr f = true := headerPlacedB_mem hplH hmH hf
        obtain ⟨pre2, post2, hsplit2⟩ := List.append_of_mem (mem_of_alookup hlookg)
        have hftag : d.field_by_tag f.tag = some f :=
          field_by_tag_of_mem hwf (field_by_name_eq hf).2
        have hpost2 : ∀ t2 v2 f2, (t2, v2) ∈ post2 → d.field_by_tag t2 = some f2 →
            f2.name ≠ f.name := by
          intro t2 v2 f2 hmp hf2 he
          have ht2 : t2 = f.tag := name_inj hwf hf2 hftag he
          have heq : (g.map Prod.fst) =
              pre2.map Prod.fst ++ f.tag :: post2.map Prod.fst := by
            rw [hsplit2]; simp
          rw [heq] at hndg
          exact (List.nodup_cons.mp hndg.of_append_right).1
            (List.mem_map.mpr ⟨(t2, v2), hmp, ht2⟩)
        rw [hsplit2] at hEF
        have hins := encodeFields_insert d hdr trl pre2 f.tag fv post2
          _ _ _ _ _ _ f out hEF hftag htr hpost2
        have hfin := hins.1 hcH
        rw [(field_by_name_eq hf).1] at hfin
        exact ⟨out, hfin, hjeq⟩
      have dir2 : ∀ k, (alookup k H).isSome = true →
          (alookup k hEnt).isSome = true := by
        intro k hs
        obtain ⟨eH, _, _⟩ := encodeFields_rev d hdr trl g _ _ _ H B T hEF k
        rcases eH hs with hseed | ⟨t, v, f, hgm, hf, hn, hc⟩
        · by_cases he : k = "MsgType"
          · subst he
            rw [hmt]; rfl
          · rw [show alookup k [("MsgType", Json.str mt)] = none from
              by simp [alookup, he]] at hseed
            exact Bool.noConfusion hseed
        · obtain ⟨k2, v2, f3, hme2, hf3, hft3, _⟩ := hsrcg t v hgm
          have hff : f = f3 := by
            rw [← hft3] at hf
            rw [field_by_tag_of_mem hwf (field_by_name_eq hf3).2] at hf
            exact (Option.some.inj hf).symm
          have hk2 : k = k2 := by rw [← hn, hff, (field_by_name_eq hf3).1]
          subst hk2
          rcases List.mem_append.mp hme2 with hme2 | hme2
          · rcases List.mem_append.mp hme2 with hme2 | hme2
            · exact alookup_isSome_of_mem hme2
            · have hcB := (bodyPlacedB_mem hplB hme2 hf3).1
              rw [← hff, hc] at hcB
              exact Bool.noConfusion hcB
          · have hcT := (trailerPlacedB_mem hplT hme2 hf3).1
            rw [← hff, hc] at hcT
            exact Bool.noConfusion hcT
      refine JsonEquiv.obj _ _ ?_ ?_
      · intro k
        cases hse : alookup k hEnt with
        | some v =>
          obtain ⟨out, ho, _⟩ := dir1 k v hse
          rw [ho]; rfl
        | none =>
          cases hsH : alookup k H with
          | none => rfl
          | some o =>
            have hx := dir2 k (by rw [hsH]; rfl)
            rw [hse] at hx
            exact Bool.noConfusion hx
      · intro k v1 v2 h1 h2
        obtain ⟨out, ho, hjeq⟩ := dir1 k v2 h2
        rw [h1] at ho
        rw [Option.some.inj ho]
        exact hjeq
    have hsecB : JsonEquiv (.obj B) (.obj bEnt) := by
      have dir1 : ∀ k v, alookup k bEnt = some v →
          ∃ out, alookup k B = some out ∧ JsonEquiv out v := by
        intro k v hke
        have hmB : (k, v) ∈ bEnt := mem_of_alookup hke
        have hmL : (k, v) ∈ hEnt ++ bEnt ++ tEnt :=
          List.mem_append.mpr (Or.inl (List.mem_append.mpr (Or.inr hmB)))
        obtain ⟨f, fv, out, hf, hdecf, htr, hjeq, _, hlookg⟩ := hmemL k v hmL
        obtain ⟨hcB1, hcB2⟩ := bodyPlacedB_mem hplB hmB hf
        obtain ⟨pre2, post2, hsplit2⟩ := List.append_of_mem (mem_of_alookup hlookg)
        have hftag : d.field_by_tag f.tag = some f :=
          field_by_tag_of_mem hwf (field_by_name_eq hf).2
        have hpost2 : ∀ t2 v2 f2, (t2, v2) ∈ post2 → d.field_by_tag t2 = some f2 →
            f2.name ≠ f.name := by
          intro t2 v2 f2 hmp hf2 he
          have ht2 : t2 = f.tag := name_inj hwf hf2 hftag he
          have heq : (g.map Prod.fst) =
              pre2.map Prod.fst ++ f.tag :: post2.map Prod.fst := by
            rw [hsplit2]; simp
          rw [heq] at hndg
          exact (List.nodup_cons.mp hndg.of_append_right).1
            (List.mem_map.mpr ⟨(t2, v2), hmp, ht2⟩)
        rw [hsplit2] at hEF
        have hins := encodeFields_insert d hdr trl pre2 f.tag fv post2
          _ _ _ _ _ _ f out hEF hftag htr hpost2
        have hfin := hins.2.2 hcB1 hcB2
        rw [(field_by_name_eq hf).1] at hfin
        exact ⟨out, hfin, hjeq⟩
      have dir2 : ∀ k, (alookup k B).isSome = true →
          (alookup k bEnt).isSome = true := by
        intro k hs
        obtain ⟨_, eB, _⟩ := encodeFields_rev d hdr trl g _ _ _ H B T hEF k
        rcases eB hs with hseed | ⟨t, v, f, hgm, hf, hn, hc1, hc2⟩
        · simp [alookup] at hseed
        · obtain ⟨k2, v2, f3, hme2, hf3, hft3, _⟩ := hsrcg t v hgm
          have hff : f = f3 := by
            rw [← hft3] at hf
            rw [field_by_tag_of_mem hwf (field_by_name_eq hf3).2] at hf
            exact (Option.some.inj hf).symm
          have hk2 : k = k2 := by rw [← hn, hff, (field_by_name_eq hf3).1]
          subst hk2
          rcases List.mem_append.mp hme2 with hme2 | hme2
          · rcases List.mem_append.mp hme2 with hme2 | hme2
            · have hcH := headerPlacedB_mem hplH hme2 hf3
              rw [← hff, hc1] at hcH
              exact Bool.noConfusion hcH
            · exact alookup_isSome_of_mem hme2
          · have hcT := (trailerPlacedB_mem hplT hme2 hf3).2
            rw [← hff, hc2] at hcT
            exact Bool.noConfusion hcT
      refine JsonEquiv.obj _ _ ?_ ?_
      · intro k
        cases hse : alookup k bEnt with
        | some v =>
          obtain ⟨out, ho, _⟩ := dir1 k v hse
          rw [ho]; rfl
        | none =>
          cases hsB : alookup k B with
          | none => rfl
          | some o =>
            have hx := dir2 k (by rw [hsB]; rfl)
            rw [hse] at hx
            exact Bool.noConfusion hx
      · intro k v1 v2 h1 h2
        obtain ⟨out, ho, hjeq⟩ := dir1 k v2 h2
        rw [h1] at ho
        rw [Option.some.inj ho]
        exact hjeq
    have hsecT : JsonEquiv (.obj T) (.obj tEnt) := by
      have dir1 : ∀ k v, alookup k tEnt = some v →
          ∃ out, alookup k T = some out ∧ JsonEquiv out v := by
        intro k v hke
        have hmT : (k, v) ∈ tEnt := mem_of_alookup hke
        have hmL : (k, v) ∈ hEnt ++ bEnt ++ tEnt := List.mem_append.mpr (Or.inr hmT)
        obtain ⟨f, fv, out, hf, hdecf, htr, hjeq, _, hlookg⟩ := hmemL k v hmL
        obtain ⟨hcT1, hcT2⟩ := trailerPlacedB_mem hplT hmT hf
        obtain ⟨pre2, post2, hsplit2⟩ := List.append_of_mem (mem_of_alookup hlookg)
        have hftag : d.field_by_tag f.tag = some f :=
          field_by_tag_of_mem hwf (field_by_name_eq hf).2
        have hpost2 : ∀ t2 v2 f2, (t2, v2) ∈ post2 → d.field_by_tag t2 = some f2 →
            f2.name ≠ f.name := by
          intro t2 v2 f2 hmp hf2 he
          have ht2 : t2 = f.tag := name_inj hwf hf2 hftag he
          have heq : (g.map Prod.fst) =
              pre2.map Prod.fst ++ f.tag :: post2.map Prod.fst := by
            rw [hsplit2]; simp
          rw [heq] at hndg
          exact (List.nodup_cons.mp hndg.of_append_right).1
            (List.mem_map.mpr ⟨(t2, v2), hmp, ht2⟩)
        rw [hsplit2] at hEF
        have hins := encodeFields_insert d hdr trl pre2 f.tag fv post2
          _ _ _ _ _ _ f out hEF hftag htr hpost2
        have hfin := hins.2.1 hcT1 hcT2
        rw [(field_by_name_eq hf).1] at hfin
        exact ⟨out, hfin, hjeq⟩
      have dir2 : ∀ k, (alookup k T).isSome = true →
          (alookup k tEnt).isSome = true := by
        intro k hs
        obtain ⟨_, _, eT⟩ := encodeFields_rev d hdr trl g _ _ _ H B T hEF k
        rcases eT hs with hseed | ⟨t, v, f, hgm, hf, hn, hc1, hc2⟩
        · simp [alookup] at hseed
        · obtain ⟨k2, v2, f3, hme2, hf3, hft3, _⟩ := hsrcg t v hgm
          have hff : f = f3 := by
            rw [← hft3] at hf
            rw [field_by_tag_of_mem hwf (field_by_name_eq hf3).2] at hf
            exact (Option.some.inj hf).symm
          have hk2 : k = k2 := by rw [← hn, hff, (field_by_name_eq hf3).1]
          subst hk2
          rcases List.mem_append.mp hme2 with hme2 | hme2
          · rcases List.mem_append.mp hme2 with hme2 | hme2
            · have hcH := headerPlacedB_mem hplH hme2 hf3
              rw [← hff, hc1] at hcH
              exact Bool.noConfusion hcH
            · have hcB := (bodyPlacedB_mem hplB hme2 hf3).2
              rw [← hff, hc2] at hcB
              exact Bool.noConfusion hcB
          · exact alookup_isSome_of_mem hme2
      refine JsonEquiv.obj _ _ ?_ ?_
      · intro k
        cases hse : alookup k tEnt with
        | some v =>
          obtain ⟨out, ho, _⟩ := dir1 k v hse
          rw [ho]; rfl
        | none =>
          cases hsT : alookup k T with
          | none => rfl
          | some o =>
            have hx := dir2 k (by rw [hsT]; rfl)
            rw [hse] at hx
            exact Bool.noConfusion hx
      · intro k v1 v2 h1 h2
        obtain ⟨out, ho, hjeq⟩ := dir1 k v2 h2
        rw [h1] at ho
        rw [Option.some.inj ho]
        exact hjeq
    refine JsonEquiv.obj _ _ ?_ ?_
    · intro k
      by_cases h1 : k = "Header"
      · subst h1
        rw [show alookup "Header" [("Header", Json.obj H), ("Body", Json.obj B),
          ("Trailer", Json.obj T)] = some (Json.obj H) from by simp [alookup]]
        rw [hHm]
        rfl
      · by_cases h2 : k = "Body"
        · subst h2
          rw [show alookup "Body" [("Header", Json.obj H), ("Body", Json.obj B),
            ("Trailer", Json.obj T)] = some (Json.obj B) from by simp [alookup]]
          rw [hBm]
          rfl
        · by_cases h3 : k = "Trailer"
          · subst h3
            rw [show alookup "Trailer" [("Header", Json.obj H), ("Body", Json.obj B),
              ("Trailer", Json.obj T)] = some (Json.obj T) from by simp [alookup]]
            rw [hTm]
            rfl
          · rw [show alookup k [("Header", Json.obj H), ("Body", Json.obj B),
              ("Trailer", Json.obj T)] = none from by simp [alookup, h1, h2, h3]]
            rw [alookup_none_of_three top htopnd htoplen hHm hBm hTm k h1 h2 h3]
    · intro k v1 v2 h1 h2
      by_cases hk1 : k = "Header"
      · subst hk1
        rw [show alookup "Header" [("Header", Json.obj H), ("Body", Json.obj B),
          ("Trailer", Json.obj T)] = some (Json.obj H) from by simp [alookup]] at h1
        rw [hHm] at h2
        rw [← Option.some.inj h1, ← Option.some.inj h2]
        exact hsecH
      · by_cases hk2 : k = "Body"
        · subst hk2
          rw [show alookup "Body" [("Header", Json.obj H), ("Body", Json.obj B),
            ("Trailer", Json.obj T)] = some (Json.obj B) from by simp [alookup]] at h1
          rw [hBm] at h2
          rw [← Option.some.inj h1, ← Option.some.inj h2]
          exact hsecB
        · by_cases hk3 : k = "Trailer"
          · subst hk3
            rw [show alookup "Trailer" [("Header", Json.obj H), ("Body", Json.obj B),
              ("Trailer", Json.obj T)] = some (Json.obj T) from by simp [alookup]] at h1
            rw [hTm] at h2
            rw [← Option.some.inj h1, ← Option.some.inj h2]
            exact hsecT
          · rw [alookup_none_of_three top htopnd htoplen hHm hBm hTm k hk1 hk2 hk3] at h2
            exact Option.noConfusion h2

/-- C1 counterexample: a document accepted by decode in which the header
field `MsgSeqNum` (tag 34) is placed in the `Body` object.  The decoder
flattens the sections into one tag map, and the encoder re-partitions by
the dictionary: `MsgSeqNum` comes back under `Header`, so the re-encoded
document is not equal to the input even modulo key ordering and
whitespace. -/
theorem json_roundtrip_counterexample :
    Codec.decode exCodec (some (.obj
      [ ("Header", .obj [("BeginString", .str "FIX.4.4"), ("MsgType", .str "W")]),
        ("Body", .obj [("MsgSeqNum", .str "5")]),
        ("Trailer", .obj []) ])) =
      .ok ⟨[(8, .String "FIX.4.4"), (34, .String "5"), (35, .String "W")]⟩ ∧
    Codec.encode exCodec
        ⟨[(8, .String "FIX.4.4"), (34, .String "5"), (35, .String "W")]⟩ =
      .ok (.obj
        [ ("Header", .obj [("MsgType", .str "W"), ("BeginString", .str "FIX.4.4"),
            ("MsgSeqNum", .str "5")]),
          ("Body", .obj []),
          ("Trailer", .obj []) ]) ∧
    ¬ JsonEquiv
      (.obj
        [ ("Header", .obj [("MsgType", .str "W"), ("BeginString", .str "FIX.4.4"),
            ("MsgSeqNum", .str "5")]),
          ("Body", .obj []),
          ("Trailer", .obj []) ])
      (.obj
        [ ("Header", .obj [("BeginString", .str "FIX.4.4"), ("MsgType", .str "W")]),
          ("Body", .obj [("MsgSeqNum", .str "5")]),
          ("Trailer", .obj []) ]) := by
  refine ⟨rfl, rfl, ?_⟩
  intro h
  cases h with
  | obj e1 e2 hiso hpt =>
    have h2 := hpt "Body" (.obj []) (.obj [("MsgSeqNum", .str "5")]) rfl rfl
    cases h2 with
    | obj e3 e4 hiso2 _ =>
      have h3 := hiso2 "MsgSeqNum"
      simp [alookup] at h3

/-- Witness for C1: a correctly partitioned market-data document, with a
repeating group in the body and a trailer field, round-trips. -/
theorem json_roundtrip_witness :
    ∃ J2, Codec.encode exCodec
        ⟨[(8, .String "FIX.4.4"), (34, .String "5"), (35, .String "W"),
          (89, .String "sig"), (268, .Group [[(269, .String "0")]])]⟩ = .ok J2 ∧
      JsonEquiv J2 (.obj
        [ ("Header", .obj [("BeginString", .str "FIX.4.4"), ("MsgType", .str "W"),
            ("MsgSeqNum", .str "5")]),
          ("Body", .obj [("NoMDEntries", .arr [.obj [("MDEntryType", .str "0")]])]),
          ("Trailer", .obj [("Signature", .str "sig")]) ]) :=
  json_roundtrip exCodec
    (.obj
      [ ("Header", .obj [("BeginString", .str "FIX.4.4"), ("MsgType", .str "W"),
          ("MsgSeqNum", .str "5")]),
        ("Body", .obj [("NoMDEntries", .arr [.obj [("MDEntryType", .str "0")]])]),
        ("Trailer", .obj [("Signature", .str "sig")]) ])
    ⟨[(8, .String "FIX.4.4"), (34, .String "5"), (35, .String "W"),
      (89, .String "sig"), (268, .Group [[(269, .String "0")]])]⟩
    [ ("Header", .obj [("BeginString", .str "FIX.4.4"), ("MsgType", .str "W"),
        ("MsgSeqNum", .str "5")]),
      ("Body", .obj [("NoMDEntries", .arr [.obj [("MDEntryType", .str "0")]])]),
      ("Trailer", .obj [("Signature", .str "sig")]) ]
    [("BeginString", .str "FIX.4.4"), ("MsgType", .str "W"), ("MsgSeqNum", .str "5")]
    [("NoMDEntries", .arr [.obj [("MDEntryType", .str "0")]])]
    [("Signature", .str "sig")]
    "W" "FIX.4.4" exDict [8, 35, 34, 49] [89, 93]
    rfl rfl rfl rfl rfl rfl rfl rfl rfl rfl rfl
    (by constructor <;> decide)
    rfl rfl rfl rfl rfl rfl rfl rfl rfl rfl rfl
    rfl
